import Mathlib

/-!
Verification development for the dqjs-webicon icon-generation pipeline
(scripts/generate-icons.js and scripts/check-duplicates.js).

The pipeline is shallowly embedded: pure text transformations become Lean
functions on `String` / `List Char`; the two external black boxes — the
`pinyin` transliteration library and the SVGO optimizer — are passed in as
explicit function parameters (`pin : String → String`,
`opt : String → String`), mirroring the "pluggable black-box transform"
boundary of the system.  JavaScript `localeCompare`-based sorting is
modelled with the lexicographic linear order on `String` (ECMA leaves the
collation implementation-defined; the development only relies on it being
a linear order).  JavaScript regexes used by the scripts are embedded as
deterministic scanners that reproduce the exact matching behaviour of each
concrete pattern, including case-insensitivity flags and
continue-after-match semantics of global `replace`/`exec`.
-/

set_option maxRecDepth 4096

namespace WebIcon

/-! ### Character classes used by the regexes of generate-icons.js -/

/-- Character class `[a-zA-Z0-9]` of the sanitizer regex. -/
def isAlnumA (c : Char) : Bool :=
  (decide (97 ≤ c.toNat) && decide (c.toNat ≤ 122)) ||
  (decide (65 ≤ c.toNat) && decide (c.toNat ≤ 90)) ||
  (decide (48 ≤ c.toNat) && decide (c.toNat ≤ 57))

/-- Lowercase-letter test (ASCII). -/
def isLowerA (c : Char) : Bool :=
  decide (97 ≤ c.toNat) && decide (c.toNat ≤ 122)

/-- Digit test (ASCII). -/
def isDigitA (c : Char) : Bool :=
  decide (48 ≤ c.toNat) && decide (c.toNat ≤ 57)

/-- Characters allowed in a sanitized base name: `[a-z0-9-]`. -/
def isKebabChar (c : Char) : Bool :=
  isLowerA c || isDigitA c || decide (c = Char.ofNat 45)

/-! ### sanitizeFileName (generate-icons.js lines 46-63)

The source first converts the string through the external `pinyin` library
(char-by-char romanization, identity on ASCII input), then applies four
regex replacements and lowercases.  The pinyin call is the `pin` parameter;
the regex chain is embedded step by step. -/

/-- Replacement of every maximal run matching `[^a-zA-Z0-9]+` by a single
hyphen (the first regex replacement, runs of characters outside the class to one hyphen).  The boolean flag
records whether we are inside a run that has already emitted its hyphen. -/
def replRuns : List Char → Bool → List Char
  | [], _ => []
  | c :: cs, inRun =>
    if isAlnumA c then c :: replRuns cs false
    else if inRun then replRuns cs true
    else '-' :: replRuns cs true

/-- Collapse of hyphen runs (the second replacement: every hyphen run to a single hyphen); the flag records
whether the previous emitted character came from a hyphen run. -/
def collapseHAux : List Char → Bool → List Char
  | [], _ => []
  | c :: cs, prevH =>
    if c = '-' then
      (if prevH then collapseHAux cs true else '-' :: collapseHAux cs true)
    else c :: collapseHAux cs false

def collapseH (l : List Char) : List Char := collapseHAux l false

/-- Removal of the trailing hyphen run (the third replacement: trailing hyphen run erased). -/
def dropTrailH (l : List Char) : List Char :=
  (l.reverse.dropWhile (fun c => c = '-')).reverse

/-- Removal of the leading hyphen run (the fourth replacement: leading hyphen run erased). -/
def dropLeadH (l : List Char) : List Char :=
  l.dropWhile (fun c => c = '-')

/-- ASCII lowercasing (`.toLowerCase()`); after the replacements the string
is ASCII, where JavaScript `toLowerCase` agrees with `Char.toLower`. -/
def lowerAll (l : List Char) : List Char := l.map Char.toLower

/-- Post-pinyin part of `sanitizeFileName`. -/
def sanitizeList (l : List Char) : List Char :=
  lowerAll (dropLeadH (dropTrailH (collapseH (replRuns l false))))

/-- Embedding of `sanitizeFileName`; `pin` is the external pinyin
transliteration (`pinyin(str, {style: normal, segment: false,
group: false}).join(empty)`), identity on ASCII strings. -/
def sanitizeFileName (pin : String → String) (s : String) : String :=
  ⟨sanitizeList (pin s).data⟩

/-! ### toPascalCase and the derived names (lines 70-108) -/

/-- Split on hyphens, as `safeStr.split(m-dash)` does: `"a--b"` becomes
`["a", "", "b"]`. -/
def consHead (c : Char) : List (List Char) → List (List Char)
  | [] => [[c]]
  | h :: t => (c :: h) :: t

def splitH : List Char → List (List Char)
  | [] => [[]]
  | c :: cs => if c = '-' then [] :: splitH cs else consHead c (splitH cs)

/-- Capitalization of one segment:
`part.charAt(0).toUpperCase() + part.slice(1).toLowerCase()`. -/
def capSeg : List Char → List Char
  | [] => []
  | c :: r => c.toUpper :: r.map Char.toLower

/-- Body of `toPascalCase` after the initial re-sanitization: split on
hyphen, drop empty segments, capitalize each, concatenate. -/
def pascalBody (b : String) : String :=
  ⟨((splitH b.data).filter (fun seg => !seg.isEmpty)).map capSeg |>.flatten⟩

/-- Embedding of `toPascalCase` (which re-runs `sanitizeFileName` on its
input before splitting). -/
def toPascalCase (pin : String → String) (s : String) : String :=
  pascalBody (sanitizeFileName pin s)

/-- Modelled from the spec: PascalCase conversion of an already-sanitized
base name — split on hyphen, capitalize the first letter of each non-empty
segment, lowercase the rest, concatenate (spec section 4.1 step 5),
without the re-sanitization the source performs. -/
def pascalOfSafe (b : String) : String :=
  ⟨((splitH b.data).filter (fun seg => !seg.isEmpty)).map capSeg |>.flatten⟩

/-- Last path segment, as `node:path`'s `basename` returns it for the
slash-separated paths this pipeline passes around. -/
def afterLastSlash (l : List Char) : List Char :=
  (l.reverse.takeWhile (fun c => c ≠ '/')).reverse

/-- Removal of a trailing `.svg`, as `basename(filename, ".svg")` does:
the suffix is stripped only when the name is strictly longer than it. -/
def stripSvgExt (l : List Char) : List Char :=
  if 4 < l.length && decide (l.drop (l.length - 4) = ".svg".data)
  then l.take (l.length - 4) else l

/-- Embedding of `toSafeFileName`:
`sanitizeFileName(basename(filename, ".svg"))`. -/
def toSafeFileName (pin : String → String) (filename : String) : String :=
  sanitizeFileName pin ⟨stripSvgExt (afterLastSlash filename.data)⟩

/-- Embedding of `toComponentName`:
`"QxIcon" + toPascalCase(toSafeFileName(filename))`. -/
def toComponentName (pin : String → String) (filename : String) : String :=
  "QxIcon" ++ toPascalCase pin (toSafeFileName pin filename)

/-- Embedding of `toTagName`:
`"qx-icon-" + toSafeFileName(filename).toLowerCase()`. -/
def toTagName (pin : String → String) (filename : String) : String :=
  "qx-icon-" ++ ⟨lowerAll (toSafeFileName pin filename).data⟩

/-! ### Scanner combinators for the embedded regexes -/

/-- Literal-prefix match: consume `p` from the front of the input. -/
def stripPre : List Char → List Char → Option (List Char)
  | [], l => some l
  | _, [] => none
  | p :: ps, c :: cs => if c = p then stripPre ps cs else none

/-- Case-insensitive literal match (for regexes carrying the `i` flag). -/
def matchCI : List Char → List Char → Option (List Char)
  | [], l => some l
  | _, [] => none
  | p :: ps, c :: cs => if c.toLower = p.toLower then matchCI ps cs else none

/-- Greedy one-or-more character-class match (`X+`). -/
def takeWhile1 (p : Char → Bool) (l : List Char) : Option (List Char × List Char) :=
  let a := l.takeWhile p
  if a.isEmpty then none else some (a, l.dropWhile p)

/-- ASCII part of the JavaScript `\s` class; every text these scripts scan
or generate is ASCII. -/
def jsSpace (c : Char) : Bool :=
  c = ' ' || c = '\t' || c = '\n' || c = '\r' || c = '\x0b' || c = '\x0c'

/-- JavaScript `\w` class: `[A-Za-z0-9_]`. -/
def isWordCh (c : Char) : Bool := isAlnumA c || c = '_'

/-- Quote class `["']` used by several of the regexes. -/
def isQuoteCh (c : Char) : Bool := c = '\x27' || c = '\x22'

def nonQuote (c : Char) : Bool := !isQuoteCh c

/-- Class `[\d.]` of the dimension regexes. -/
def isDigitDot (c : Char) : Bool := isDigitA c || c = '.'

/-! ### cleanSvg (lines 115-122): comment removal and whitespace
normalization, each a global regex replacement embedded with
continue-after-match semantics. -/

/-- Lazy search for the closing `-` `-` `>` of an XML comment; returns the
remainder after it. -/
def findCommentClose : Nat → List Char → Option (List Char)
  | 0, _ => none
  | _ + 1, [] => none
  | f + 1, l =>
    match stripPre "-->".data l with
    | some r => some r
    | none => findCommentClose f l.tail

/-- Global replacement of XML comments by nothing. -/
def removeCommentsAux : Nat → List Char → List Char
  | 0, l => l
  | _ + 1, [] => []
  | f + 1, c :: cs =>
    match stripPre "<!--".data (c :: cs) with
    | some r =>
      match findCommentClose (r.length + 1) r with
      | some r2 => removeCommentsAux f r2
      | none => c :: removeCommentsAux f cs
    | none => c :: removeCommentsAux f cs

/-- Global replacement of a newline followed by any whitespace run by one
space. -/
def replNLAux : Nat → List Char → List Char
  | 0, l => l
  | _ + 1, [] => []
  | f + 1, c :: cs =>
    if c = '\n' then ' ' :: replNLAux f (cs.dropWhile jsSpace)
    else c :: replNLAux f cs

/-- Global collapse of whitespace runs to one space. -/
def collWSAux : Nat → List Char → List Char
  | 0, l => l
  | _ + 1, [] => []
  | f + 1, c :: cs =>
    if jsSpace c then ' ' :: collWSAux f (cs.dropWhile jsSpace)
    else c :: collWSAux f cs

/-- Global removal of whitespace between a closing and an opening angle
bracket. -/
def tagGapAux : Nat → List Char → List Char
  | 0, l => l
  | _ + 1, [] => []
  | f + 1, c :: cs =>
    if c = '>' then
      match (cs.takeWhile jsSpace).isEmpty, cs.dropWhile jsSpace with
      | false, '<' :: r2 => '>' :: '<' :: tagGapAux f r2
      | _, _ => c :: tagGapAux f cs
    else c :: tagGapAux f cs

def trimWS (l : List Char) : List Char :=
  ((l.dropWhile jsSpace).reverse.dropWhile jsSpace).reverse

/-- Embedding of `cleanSvg`. -/
def cleanSvg (s : String) : String :=
  let l0 := s.data
  let l1 := removeCommentsAux l0.length l0
  let l2 := replNLAux l1.length l1
  let l3 := collWSAux l2.length l2
  let l4 := tagGapAux l3.length l3
  ⟨trimWS l4⟩

/-! ### Width/height stripping for colors icons (lines 471-474, 578-581):
`svgContent.replace` of the global, case-insensitive pattern — a whitespace
character, `width` or `height`, an equals sign, a quote, a run of
non-quote characters, a quote. -/

/-- Attempt to match the stripped pattern at the head of the input;
returns the remainder after the match. -/
def tryWH (l : List Char) : Option (List Char) :=
  match l with
  | [] => none
  | c :: cs =>
    if jsSpace c then
      match (match matchCI "width".data cs with
             | some r => some r
             | none => matchCI "height".data cs) with
      | some ('=' :: q :: r3) =>
        if isQuoteCh q then
          match r3.dropWhile nonQuote with
          | q2 :: r4 => if isQuoteCh q2 then some r4 else none
          | [] => none
        else none
      | _ => none
    else none

def stripWHAux : Nat → List Char → List Char
  | 0, l => l
  | _ + 1, [] => []
  | f + 1, c :: cs =>
    match tryWH (c :: cs) with
    | some rest => stripWHAux f rest
    | none => c :: stripWHAux f cs

/-- Embedding of the colors-only width/height attribute removal. -/
def stripWHs (s : String) : String :=
  ⟨stripWHAux s.data.length s.data⟩

/-! ### getSvgDimensions (lines 140-158) -/

/-- Attempt, at the head of the input, the case-insensitive viewBox
pattern: `viewBox=`, a quote, optional whitespace, four one-or-more runs
of `[\d.]` separated by whitespace, optional whitespace, a quote.
Returns the four captured groups. -/
def tryVB (l : List Char) :
    Option (List Char × List Char × List Char × List Char) :=
  match matchCI "viewBox=".data l with
  | none => none
  | some [] => none
  | some (q :: r1) =>
    if isQuoteCh q then
      match takeWhile1 isDigitDot (r1.dropWhile jsSpace) with
      | none => none
      | some (d1, r2) =>
        match takeWhile1 jsSpace r2 with
        | none => none
        | some (_, r3) =>
          match takeWhile1 isDigitDot r3 with
          | none => none
          | some (d2, r4) =>
            match takeWhile1 jsSpace r4 with
            | none => none
            | some (_, r5) =>
              match takeWhile1 isDigitDot r5 with
              | none => none
              | some (d3, r6) =>
                match takeWhile1 jsSpace r6 with
                | none => none
                | some (_, r7) =>
                  match takeWhile1 isDigitDot r7 with
                  | none => none
                  | some (d4, r8) =>
                    match r8.dropWhile jsSpace with
                    | q2 :: _ =>
                      if isQuoteCh q2 then some (d1, d2, d3, d4) else none
                    | [] => none
    else none

/-- First viewBox match anywhere in the text (`String.prototype.match`
with a non-global regex returns the leftmost match). -/
def findViewBox : List Char → Option (List Char × List Char × List Char × List Char)
  | [] => none
  | c :: cs =>
    match tryVB (c :: cs) with
    | some g => some g
    | none => findViewBox cs

/-- Attempt, at the head of the input, the case-insensitive pattern
`name=`, a quote, a one-or-more run of `[\d.]`; returns the captured run.
Nothing anchors the name, so it also matches inside longer attribute
names such as `stroke-width`. -/
def tryAttr (name : List Char) (l : List Char) : Option (List Char) :=
  match matchCI (name ++ "=".data) l with
  | none => none
  | some [] => none
  | some (q :: r1) =>
    if isQuoteCh q then
      match takeWhile1 isDigitDot r1 with
      | none => none
      | some (d, _) => some d
    else none

def findAttr (name : List Char) : List Char → Option (List Char)
  | [] => none
  | c :: cs =>
    match tryAttr name (c :: cs) with
    | some d => some d
    | none => findAttr name cs

/-- Model of JavaScript `parseFloat` on strings drawn from `[\d.]+`:
longest valid decimal prefix, `none` for NaN. -/
def natOfDigits (l : List Char) : Nat :=
  l.foldl (fun n c => 10 * n + (c.toNat - 48)) 0

def jsParseFloat (l : List Char) : Option ℚ :=
  let d1 := l.takeWhile isDigitA
  match l.dropWhile isDigitA with
  | '.' :: r2 =>
    let d2 := r2.takeWhile isDigitA
    if d1.isEmpty && d2.isEmpty then none
    else some ((natOfDigits d1 : ℚ) + (natOfDigits d2 : ℚ) / (10 : ℚ) ^ d2.length)
  | _ => if d1.isEmpty then none else some (natOfDigits d1 : ℚ)

/-- Extracted dimensions; `none` in a field models a NaN `parseFloat`. -/
structure Dims where
  width : Option ℚ
  height : Option ℚ
deriving DecidableEq, Repr

/-- Embedding of `getSvgDimensions`. -/
def getSvgDimensions (svg : String) : Option Dims :=
  match findViewBox svg.data with
  | some (_, _, g3, g4) => some ⟨jsParseFloat g3, jsParseFloat g4⟩
  | none =>
    match findAttr "width".data svg.data, findAttr "height".data svg.data with
    | some w, some h => some ⟨jsParseFloat w, jsParseFloat h⟩
    | _, _ => none

/-! ### Per-file SVG processing (processSingleFile lines 452-491 and the
identical body of processDirectory lines 567-595): dimensions are read
from the raw markup, then the optimizer (black box `opt`), `cleanSvg`,
and — for colors icons only — the width/height stripping are applied. -/

inductive IconType
  | nocolors
  | colors
deriving DecidableEq, Repr

def processSvg (opt : String → String) (ty : IconType) (raw : String) : String :=
  let s1 := cleanSvg (opt raw)
  match ty with
  | .colors => stripWHs s1
  | .nocolors => s1

/-- Markup and dimensions produced for one file: the pair
(`svgContent` after all transforms, `dimensions` from the raw markup). -/
def transformFile (opt : String → String) (ty : IconType) (raw : String) :
    String × Option Dims :=
  (processSvg opt ty raw, getSvgDimensions raw)

/-! ### Duplicate Guard (scripts/check-duplicates.js lines 15-45) -/

/-- Embedding of the guard: collect the `.svg` names of the nocolors
directory, report every `.svg` name of the colors directory already seen;
exit status 1 exactly when the report is non-empty. -/
def checkDuplicates (noc col : List String) : List String × Nat :=
  let fileNames := noc.filter (fun f => f.endsWith ".svg")
  let duplicates :=
    (col.filter (fun f => f.endsWith ".svg")).filter
      (fun f => fileNames.contains f)
  (duplicates, if duplicates.length > 0 then 1 else 0)

/-! ### The ExportManifest: generateIndex (lines 373-397) and
parseExistingIndex (lines 403-422) -/

/-- Manifest entry as stored in the incremental map:
`{componentName, safeFileName}`. -/
structure IconInfo where
  componentName : String
  safeFileName : String
deriving DecidableEq, Repr

/-- Text of one generated export line. -/
def exportLineL (e : IconInfo) : List Char :=
  "export \x7b ".data ++ e.componentName.data ++ " \x7d from \x27./icons/".data
    ++ e.safeFileName.data ++ ".js\x27;".data

/-- Header comment of the generated index file. -/
def indexHeaderL : List Char :=
  ("/**\n * @dqjs/webicon - Auto-generated icon components\n *\n * Usage:\n"
    ++ " *   import \x7b QxIconArrowLeft \x7d from \x27@dqjs/webicon\x27;\n"
    ++ " *   // or\n *   import \x27@dqjs/webicon/icons/arrow-left.js\x27;\n"
    ++ " *   // then use <qx-icon-arrow-left></qx-icon-arrow-left>\n */\n\n").data

/-- Zero-icon placeholder module emitted when no icons exist. -/
def emptyIndexL : List Char :=
  ("// No icons generated yet. Add SVG files to svg/nocolors/ or svg/colors/ directory.\n"
    ++ "export \x7b\x7d;\n").data

/-- Lexicographic comparison of character lists by code point. -/
def lexLeB : List Char → List Char → Bool
  | [], _ => true
  | _ :: _, [] => false
  | a :: as, b :: bs =>
    if a = b then lexLeB as bs else decide (a.toNat < b.toNat)

/-- Comparator of the generated sort,
`a.safeFileName.localeCompare(b.safeFileName)`, modelled by the
lexicographic code-point order (the ECMA collation is
implementation-defined; the pipeline relies only on it being a linear
order). -/
def strLe (a b : String) : Prop := lexLeB a.data b.data = true

instance : DecidableRel strLe := fun a b =>
  inferInstanceAs (Decidable (lexLeB a.data b.data = true))

def iconLe (a b : IconInfo) : Prop := strLe a.safeFileName b.safeFileName

instance : DecidableRel iconLe := fun a b =>
  inferInstanceAs (Decidable (strLe a.safeFileName b.safeFileName))

def sortIcons (l : List IconInfo) : List IconInfo :=
  List.insertionSort iconLe l

def joinNL : List (List Char) → List Char
  | [] => []
  | [x] => x
  | x :: y :: r => x ++ '\n' :: joinNL (y :: r)

/-- Embedding of `generateIndex`. -/
def generateIndexL (icons : List IconInfo) : List Char :=
  if icons.isEmpty then emptyIndexL
  else indexHeaderL ++ joinNL ((sortIcons icons).map exportLineL) ++ ['\n']

def generateIndex (icons : List IconInfo) : String :=
  ⟨generateIndexL icons⟩

/-- Single-quote-or-double-quote step (`["']` in the patterns). -/
def quoteStep : List Char → Option (List Char)
  | [] => none
  | q :: r => if isQuoteCh q then some r else none

/-- Backtracking outcome of `([^'"]+)\\.js` followed by a quote: since the
captured class excludes both quote characters and a quote must follow, the
whole non-quote run must end in `.js` with a non-empty capture. -/
def jsGuard (u : List Char) : Option Unit :=
  if 4 ≤ u.length && decide (u.drop (u.length - 3) = ".js".data) then some ()
  else none

/-- Attempt of the export-line regex at the head of the input (the global
pattern of `parseExistingIndex`: `export`, optional whitespace, an open
brace, optional whitespace, a word run, optional whitespace, a close
brace, optional whitespace, `from`, optional whitespace, a quote,
`./icons/`, a non-quote run that must end in `.js`, a quote).  Returns
the two captured groups and the remainder after the match. -/
def tryExport (l : List Char) : Option (String × String × List Char) :=
  (stripPre "export".data l).bind fun l1 =>
  (stripPre ['\x7b'] (List.dropWhile jsSpace l1)).bind fun l3 =>
  (takeWhile1 isWordCh (List.dropWhile jsSpace l3)).bind fun wl =>
  (stripPre ['\x7d'] (List.dropWhile jsSpace wl.2)).bind fun l7 =>
  (stripPre "from".data (List.dropWhile jsSpace l7)).bind fun l9 =>
  (quoteStep (List.dropWhile jsSpace l9)).bind fun l11 =>
  (stripPre "./icons/".data l11).bind fun l12 =>
  (takeWhile1 nonQuote l12).bind fun ul =>
  (jsGuard ul.1).bind fun _ =>
  (quoteStep ul.2).bind fun l14 =>
  some (⟨wl.1⟩, ⟨ul.1.take (ul.1.length - 3)⟩, l14)

/-- Repeated `exec` of the global export-line regex: leftmost match, then
continue after it.  The fuel argument is the input length. -/
def scanExAux : Nat → List Char → List (String × String)
  | 0, _ => []
  | _ + 1, [] => []
  | f + 1, c :: cs =>
    match tryExport (c :: cs) with
    | some (w, s, rest) => (w, s) :: scanExAux f rest
    | none => scanExAux f cs

def scanEx (l : List Char) : List (String × String) := scanExAux l.length l

/-- JavaScript `Map.set` keyed by `safeFileName`: replace in place, else
append. -/
def jsSet : List IconInfo → IconInfo → List IconInfo
  | [], e => [e]
  | x :: xs, e =>
    if x.safeFileName = e.safeFileName then e :: xs else x :: jsSet xs e

/-- JavaScript `Map.delete` keyed by `safeFileName`. -/
def jsDelete : List IconInfo → String → List IconInfo
  | [], _ => []
  | x :: xs, k => if x.safeFileName = k then xs else x :: jsDelete xs k

def buildMap (ps : List (String × String)) : List IconInfo :=
  ps.foldl (fun m p => jsSet m ⟨p.1, p.2⟩) []

/-- Embedding of `parseExistingIndex`; a missing index file is modelled by
the empty string (both give the empty map). -/
def parseExistingIndex (content : String) : List IconInfo :=
  buildMap (scanEx content.data)

/-! ### Shape predicates for sanitized names -/

/-- Head is not a hyphen (vacuously true for the empty list). -/
def headNotH : List Char → Bool
  | [] => true
  | c :: _ => !decide (c = '-')

/-- No two adjacent hyphens. -/
def noDoubleB : List Char → Bool
  | c1 :: c2 :: r => (!(decide (c1 = '-') && decide (c2 = '-'))) && noDoubleB (c2 :: r)
  | _ => true

def lastNotH (l : List Char) : Bool := headNotH l.reverse

/-- Shape demanded of a non-empty sanitized base name by the spec:
non-empty, characters in `[a-z0-9-]`, no doubled hyphen, no leading or
trailing hyphen — equivalently the regex of the spec together with its
no-doubled-hyphen gloss. -/
def kebabShapeB (l : List Char) : Bool :=
  !l.isEmpty && l.all isKebabChar && noDoubleB l && headNotH l && lastNotH l

/-- Adjacency relation behind `noDoubleB`. -/
def hyphRel (a b : Char) : Prop := ¬(a = '-' ∧ b = '-')

/-- Hyphen-free test. -/
def hyphenFreeB (l : List Char) : Bool := l.all (fun c => !decide (c = '-'))

/-! ### System model for the build orchestrators (lines 452-711)

Only filenames influence the ExportManifest, so directories are listed by
filename; markup bodies enter the model through `transformFile` alone. -/

/-- Observable state: the two svg directory listings, the set of generated
component files (by safeFileName), and the content of the generated index
file (the empty string models a missing file — `parseExistingIndex`
returns the empty map for both). -/
structure SysState where
  noc : List String
  col : List String
  out : List String
  idx : String
deriving DecidableEq, Repr

def dirOf (st : SysState) : IconType → List String
  | .nocolors => st.noc
  | .colors => st.col

/-- Embedding of `processSingleFile` (lines 452-491) at manifest level:
the file must exist in its type directory (`existsSync`, otherwise a
warning and `null`); on success the generated component file is written
and the derived names are returned. -/
def processSingleFile (pin : String → String) (dirFiles : List String)
    (filePath : String) : Option IconInfo :=
  let filename : String := ⟨afterLastSlash filePath.data⟩
  if dirFiles.contains filename then
    some ⟨toComponentName pin filename, toSafeFileName pin filename⟩
  else none

/-- Name of the component file written for an entry
(`join(OUTPUT_DIR, safeFileName + ".ts")`). -/
def outputFileName (e : IconInfo) : String := e.safeFileName ++ ".ts"

/-- Embedding of `deleteSingleFile` (lines 498-511) combined with the
manifest removal of lines 616-621: output file and map entry are removed
only when the generated file exists; otherwise only a warning is printed
and both are left untouched. -/
def deleteStep (pin : String → String) (acc : List String × List IconInfo)
    (filePath : String) : List String × List IconInfo :=
  let s := toSafeFileName pin ⟨afterLastSlash filePath.data⟩
  if acc.1.contains s then (acc.1.erase s, jsDelete acc.2 s)
  else acc

/-- Split of an incremental path on slashes (`filePath.split("/")`,
lines 628-631). -/
def splitSlash : List Char → List (List Char)
  | [] => [[]]
  | c :: cs => if c = '/' then [] :: splitSlash cs else consHead c (splitSlash cs)

/-- `parts[0] === "colors" ? "colors" : "nocolors"`. -/
def pathType (p : String) : IconType :=
  match (splitSlash p.data).head? with
  | some t => if t = "colors".data then .colors else .nocolors
  | none => .nocolors

/-- `parts[parts.length - 1]`. -/
def pathFile (p : String) : String :=
  ⟨(splitSlash p.data).getLastD []⟩

/-- Addition branch of the incremental loop (lines 625-641). -/
def addStep (pin : String → String) (st : SysState)
    (acc : List String × List IconInfo) (filePath : String) :
    List String × List IconInfo :=
  match processSingleFile pin (dirOf st (pathType filePath)) (pathFile filePath) with
  | some info =>
    ((if acc.1.contains info.safeFileName then acc.1
      else acc.1 ++ [info.safeFileName]), jsSet acc.2 info)
  | none => acc

/-- Embedding of `incrementalBuild` (lines 602-649): parse the existing
index, apply deletions first, then additions, and regenerate the index
from the resulting map. -/
def incrementalBuild (pin : String → String) (st : SysState)
    (del add : List String) : SysState :=
  let m0 := parseExistingIndex st.idx
  let d := del.foldl (deleteStep pin) (st.out, m0)
  let a := add.foldl (addStep pin st) d
  { st with out := a.1, idx := generateIndex a.2 }

/-- Kernel-computable form of the `.endsWith(".svg")` test used by the
directory scans (same take/drop formulation as `stripSvgExt` above). -/
def endsSvgB (f : String) : Bool :=
  decide (4 ≤ f.data.length) &&
    decide (f.data.drop (f.data.length - 4) = ".svg".data)

def svgOnly (files : List String) : List String :=
  files.filter endsSvgB

def mkEntry (pin : String → String) (f : String) : IconInfo :=
  ⟨toComponentName pin f, toSafeFileName pin f⟩

/-- Manifest list accumulated by a full build — `processDirectory` over
nocolors then colors (lines 548-596, 654-696); `generateIndex` reads only
the componentName and safeFileName fields of the pushed records. -/
def fullBuildEntries (pin : String → String) (noc col : List String) :
    List IconInfo :=
  (svgOnly noc).map (mkEntry pin) ++ (svgOnly col).map (mkEntry pin)

/-- Index content written by a full build from directory listings. -/
def fullBuildIndex (pin : String → String) (noc col : List String) : String :=
  generateIndex (fullBuildEntries pin noc col)

/-- One tracked file event: the file is placed in or removed from its
directory, and the dev server invokes one incremental build reporting
exactly that path. -/
inductive FileOp
  | add (ty : IconType) (name : String)
  | del (ty : IconType) (name : String)
deriving DecidableEq, Repr

def typeSeg : IconType → String
  | .nocolors => "nocolors"
  | .colors => "colors"

def pathOf (ty : IconType) (name : String) : String :=
  typeSeg ty ++ "/" ++ name

def insertName (files : List String) (n : String) : List String :=
  if files.contains n then files else files ++ [n]

/-- Directory effect of an event. -/
def applyDirOp (st : SysState) : FileOp → SysState
  | .add .nocolors n => { st with noc := insertName st.noc n }
  | .add .colors n => { st with col := insertName st.col n }
  | .del .nocolors n => { st with noc := st.noc.erase n }
  | .del .colors n => { st with col := st.col.erase n }

/-- Directory effect followed by the corresponding incremental build. -/
def applyOp (pin : String → String) (st : SysState) : FileOp → SysState
  | .add ty n => incrementalBuild pin (applyDirOp st (.add ty n)) [] [pathOf ty n]
  | .del ty n => incrementalBuild pin (applyDirOp st (.del ty n)) [pathOf ty n] []

def runOps (pin : String → String) (st : SysState) : List FileOp → SysState
  | [] => st
  | op :: ops => runOps pin (applyOp pin st op) ops

/-- Fresh checkout: empty directories, no generated files, no index. -/
def initState : SysState := ⟨[], [], [], ""⟩

def allSafeNames (pin : String → String) (st : SysState) : List String :=
  (svgOnly st.noc ++ svgOnly st.col).map (toSafeFileName pin)

def plainSvgName (n : String) : Bool :=
  endsSvgB n && n.data.all (fun c => !decide (c = '/'))

/-- Well-formedness of one tracked event: the name is a plain `.svg`
filename; a delete targets a file of its own directory or one absent from
both directories whose safe name collides with no present file; and after
the event no two files of the two directories share a derived
safeBaseName and none sanitizes to the empty string. -/
def wfOp (pin : String → String) (st : SysState) : FileOp → Bool
  | .add ty n => plainSvgName n &&
      decide ((allSafeNames pin (applyDirOp st (.add ty n))).Nodup) &&
      (allSafeNames pin (applyDirOp st (.add ty n))).all (fun s => !s.isEmpty)
  | .del ty n => plainSvgName n &&
      ((dirOf st ty).contains n ||
        (!st.noc.contains n && !st.col.contains n &&
          !(allSafeNames pin st).contains (toSafeFileName pin n)))

def wfRun (pin : String → String) (st : SysState) : List FileOp → Bool
  | [] => true
  | op :: ops => wfOp pin st op && wfRun pin (applyOp pin st op) ops

/-- Entry well-formedness sufficient for exact parse recovery: non-empty
all-word componentName, non-empty quote-free safeFileName.  Names derived
by the pipeline satisfy it, and so does everything `scanEx` itself
captures. -/
def wfInfo (e : IconInfo) : Prop :=
  ¬e.componentName.data = [] ∧ e.componentName.data.all isWordCh = true ∧
    ¬e.safeFileName.data = [] ∧ e.safeFileName.data.all nonQuote = true

instance (e : IconInfo) : Decidable (wfInfo e) := by
  unfold wfInfo
  infer_instance

/-- Absence of the digram `ex` (and of a trailing `e`): a sufficient
syntactic condition for a text to contain no start of an `export` match,
even jointly with any continuation. -/
def noExB : List Char → Bool
  | [] => true
  | [c] => !decide (c = 'e')
  | c1 :: c2 :: r => (!(decide (c1 = 'e') && decide (c2 = 'x'))) && noExB (c2 :: r)

/-- Key projection of the manifest map. -/
def keysOf (m : List IconInfo) : List String := m.map (fun e => e.safeFileName)

/-- Invariant carried through well-formed runs of the dev-server loop: the
stored index parses to a permutation of what a full build of the current
directory listings would record, the generated-file set agrees with the
parsed keys up to membership, and the directory listings and the output
set are duplicate-free. -/
def sysInv (pin : String → String) (st : SysState) : Prop :=
  List.Perm (parseExistingIndex st.idx) (fullBuildEntries pin st.noc st.col) ∧
  (∀ x, x ∈ st.out ↔ x ∈ keysOf (parseExistingIndex st.idx)) ∧
  st.noc.Nodup ∧ st.col.Nodup ∧ st.out.Nodup

/-! ### Character-level lemmas about Char.toLower / Char.toUpper -/

theorem char_toNat_ofNat {n : Nat} (h : n < 55296) : (Char.ofNat n).toNat = n := by
  have hv : n.isValidChar := Or.inl h
  simp only [Char.ofNat, dif_pos hv]
  rfl

theorem toLower_of_kebab {c : Char} (h : isKebabChar c = true) : c.toLower = c := by
  simp only [isKebabChar, isLowerA, isDigitA, Bool.or_eq_true, Bool.and_eq_true,
    decide_eq_true_eq] at h
  have hn : ¬(c.toNat ≥ 65 ∧ c.toNat ≤ 90) := by
    rcases h with (⟨h1, h2⟩ | ⟨h1, h2⟩) | h3
    · omega
    · omega
    · have : c.toNat = 45 := by rw [h3]; decide
      omega
  simp only [Char.toLower, if_neg hn]

theorem kebab_toLower_of_alnum {c : Char} (h : isAlnumA c = true ∨ c = '-') :
    isKebabChar c.toLower = true := by
  rcases h with h | h
  · simp only [isAlnumA, Bool.or_eq_true, Bool.and_eq_true, decide_eq_true_eq] at h
    rcases h with (⟨h1, h2⟩ | ⟨h1, h2⟩) | ⟨h1, h2⟩
    · have : c.toLower = c := by
        simp only [Char.toLower, if_neg (by omega : ¬(c.toNat ≥ 65 ∧ c.toNat ≤ 90))]
      rw [this]
      simp only [isKebabChar, isLowerA, Bool.or_eq_true, Bool.and_eq_true, decide_eq_true_eq]
      exact Or.inl (Or.inl ⟨h1, h2⟩)
    · have : c.toLower = Char.ofNat (c.toNat + 32) := by
        simp only [Char.toLower, if_pos (by omega : c.toNat ≥ 65 ∧ c.toNat ≤ 90)]
      rw [this]
      have ht : (Char.ofNat (c.toNat + 32)).toNat = c.toNat + 32 :=
        char_toNat_ofNat (by omega)
      simp only [isKebabChar, isLowerA, Bool.or_eq_true, Bool.and_eq_true,
        decide_eq_true_eq, ht]
      exact Or.inl (Or.inl ⟨by omega, by omega⟩)
    · have : c.toLower = c := by
        simp only [Char.toLower, if_neg (by omega : ¬(c.toNat ≥ 65 ∧ c.toNat ≤ 90))]
      rw [this]
      simp only [isKebabChar, isDigitA, Bool.or_eq_true, Bool.and_eq_true, decide_eq_true_eq]
      exact Or.inl (Or.inr ⟨h1, h2⟩)
  · subst h
    decide

theorem toLower_ne_hyph {c : Char} (h : ¬c = '-') : ¬c.toLower = '-' := by
  by_cases hc : c.toNat ≥ 65 ∧ c.toNat ≤ 90
  · have : c.toLower = Char.ofNat (c.toNat + 32) := by
      simp only [Char.toLower, if_pos hc]
    rw [this]
    intro he
    have := congrArg Char.toNat he
    rw [char_toNat_ofNat (by omega)] at this
    have hd : ('-' : Char).toNat = 45 := by decide
    omega
  · have : c.toLower = c := by simp only [Char.toLower, if_neg hc]
    rw [this]
    exact h

theorem toUpper_ne_hyph {c : Char} (h : ¬c = '-') : ¬c.toUpper = '-' := by
  by_cases hc : c.toNat ≥ 97 ∧ c.toNat ≤ 122
  · have : c.toUpper = Char.ofNat (c.toNat - 32) := by
      simp only [Char.toUpper, if_pos hc]
    rw [this]
    intro he
    have := congrArg Char.toNat he
    rw [char_toNat_ofNat (by omega)] at this
    have hd : ('-' : Char).toNat = 45 := by decide
    omega
  · have : c.toUpper = c := by simp only [Char.toUpper, if_neg hc]
    rw [this]
    exact h

/-! ### Invariants of the sanitizer chain -/

theorem mem_replRuns {c : Char} :
    ∀ {l : List Char} {b : Bool}, c ∈ replRuns l b → isAlnumA c = true ∨ c = '-' := by
  intro l
  induction l with
  | nil => intro b h; simp [replRuns] at h
  | cons x xs ih =>
    intro b h
    by_cases hx : isAlnumA x
    · rw [replRuns, if_pos hx] at h
      rcases List.mem_cons.mp h with h1 | h2
      · exact Or.inl (h1 ▸ hx)
      · exact ih h2
    · rw [replRuns, if_neg hx] at h
      cases b with
      | true => exact ih (by simpa using h)
      | false =>
        simp only [Bool.false_eq_true, if_false] at h
        rcases List.mem_cons.mp h with h1 | h2
        · exact Or.inr h1
        · exact ih h2

theorem mem_collapseHAux {c : Char} :
    ∀ {l : List Char} {b : Bool}, c ∈ collapseHAux l b → c ∈ l ∨ c = '-' := by
  intro l
  induction l with
  | nil => intro b h; simp [collapseHAux] at h
  | cons x xs ih =>
    intro b h
    by_cases hx : x = '-'
    · rw [collapseHAux, if_pos hx] at h
      cases b with
      | true =>
        simp only [if_true] at h
        rcases ih h with h1 | h2
        · exact Or.inl (List.mem_cons_of_mem _ h1)
        · exact Or.inr h2
      | false =>
        simp only [Bool.false_eq_true, if_false] at h
        rcases List.mem_cons.mp h with h1 | h2
        · exact Or.inr h1
        · rcases ih h2 with h3 | h4
          · exact Or.inl (List.mem_cons_of_mem _ h3)
          · exact Or.inr h4
    · rw [collapseHAux, if_neg hx] at h
      rcases List.mem_cons.mp h with h1 | h2
      · exact Or.inl (h1 ▸ List.mem_cons_self _ _)
      · rcases ih h2 with h3 | h4
        · exact Or.inl (List.mem_cons_of_mem _ h3)
        · exact Or.inr h4

theorem mem_dropWhile_imp {p : Char → Bool} {c : Char} :
    ∀ {l : List Char}, c ∈ l.dropWhile p → c ∈ l := by
  intro l
  induction l with
  | nil => intro h; simpa using h
  | cons x xs ih =>
    intro h
    rw [List.dropWhile_cons] at h
    by_cases hx : p x
    · simp only [hx, if_true] at h
      exact List.mem_cons_of_mem _ (ih h)
    · simp only [hx, Bool.false_eq_true, if_false] at h
      exact h

theorem mem_dropTrailH {c : Char} {l : List Char} (h : c ∈ dropTrailH l) : c ∈ l := by
  unfold dropTrailH at h
  rw [List.mem_reverse] at h
  have := mem_dropWhile_imp h
  rwa [List.mem_reverse] at this

/-- Every character of a sanitized name is a lowercase kebab character;
this covers both the character-set and the all-lowercase sanitization
invariants. -/
theorem sanitizeList_all_kebab (l : List Char) :
    (sanitizeList l).all isKebabChar = true := by
  rw [List.all_eq_true]
  intro c hc
  unfold sanitizeList lowerAll at hc
  rcases List.mem_map.mp hc with ⟨d, hd, hdc⟩
  have hd2 : d ∈ dropTrailH (collapseH (replRuns l false)) :=
    mem_dropWhile_imp hd
  have hd3 : d ∈ collapseH (replRuns l false) := mem_dropTrailH hd2
  have hd4 : d ∈ replRuns l false ∨ d = '-' := mem_collapseHAux hd3
  have hd5 : isAlnumA d = true ∨ d = '-' := by
    rcases hd4 with h1 | h2
    · exact mem_replRuns h1
    · exact Or.inr h2
  exact hdc ▸ kebab_toLower_of_alnum hd5

theorem headNotH_collapse_true : ∀ l : List Char, headNotH (collapseHAux l true) = true := by
  intro l
  induction l with
  | nil => rfl
  | cons x xs ih =>
    by_cases hx : x = '-'
    · rw [collapseHAux, if_pos hx]
      exact ih
    · rw [collapseHAux, if_neg hx]
      simp [headNotH, hx]

theorem noDoubleB_cons {c : Char} {l : List Char} :
    noDoubleB (c :: l) = true ↔ ((c = '-' → headNotH l = true) ∧ noDoubleB l = true) := by
  cases l with
  | nil => simp [noDoubleB, headNotH]
  | cons x xs =>
    by_cases hc : c = '-' <;> by_cases hx : x = '-' <;>
      simp [noDoubleB, headNotH, hc, hx]

theorem noDoubleB_collapseHAux : ∀ (l : List Char) (b : Bool), noDoubleB (collapseHAux l b) = true := by
  intro l
  induction l with
  | nil => intro b; rfl
  | cons x xs ih =>
    intro b
    by_cases hx : x = '-'
    · rw [collapseHAux, if_pos hx]
      cases b with
      | true => exact ih true
      | false =>
        simp only [Bool.false_eq_true, if_false]
        rw [noDoubleB_cons]
        exact ⟨fun _ => headNotH_collapse_true xs, ih true⟩
    · rw [collapseHAux, if_neg hx]
      rw [noDoubleB_cons]
      exact ⟨fun hc => absurd hc hx, ih false⟩

theorem noDoubleB_tail {c : Char} {l : List Char} (h : noDoubleB (c :: l) = true) :
    noDoubleB l = true :=
  (noDoubleB_cons.mp h).2

theorem noDoubleB_iff_chain (l : List Char) :
    noDoubleB l = true ↔ l.Chain' hyphRel := by
  induction l with
  | nil => simp [noDoubleB]
  | cons c cs ih =>
    rw [noDoubleB_cons, List.chain'_cons', ih]
    apply and_congr_left
    intro _
    cases cs with
    | nil => simp [headNotH, hyphRel]
    | cons x xs =>
      by_cases hc : c = '-' <;> by_cases hx : x = '-' <;>
        simp [headNotH, hyphRel, hc, hx]

theorem noDoubleB_reverse {l : List Char} (h : noDoubleB l = true) :
    noDoubleB l.reverse = true := by
  rw [noDoubleB_iff_chain] at h ⊢
  rw [List.chain'_reverse]
  exact h.imp (fun _ _ hba hc => hba ⟨hc.2, hc.1⟩)

theorem noDoubleB_dropWhile {p : Char → Bool} {l : List Char}
    (h : noDoubleB l = true) : noDoubleB (l.dropWhile p) = true := by
  induction l with
  | nil => simpa using h
  | cons c cs ih =>
    rw [List.dropWhile_cons]
    by_cases hp : p c
    · simp only [hp, if_true]
      exact ih (noDoubleB_tail h)
    · simpa [hp] using h

theorem headNotH_dropWhileH (l : List Char) :
    headNotH (l.dropWhile (fun c => c = '-')) = true := by
  induction l with
  | nil => rfl
  | cons c cs ih =>
    rw [List.dropWhile_cons]
    by_cases hc : c = '-'
    · simpa [hc] using ih
    · simp [hc, headNotH]

theorem headNotH_append_left {x y : List Char} (h : x ≠ []) :
    headNotH (x ++ y) = headNotH x := by
  cases x with
  | nil => exact absurd rfl h
  | cons c cs => simp [headNotH]

theorem lastNotH_of_cons {c : Char} {l : List Char} (h : lastNotH (c :: l) = true)
    (hl : l ≠ []) : lastNotH l = true := by
  unfold lastNotH at h ⊢
  rw [List.reverse_cons] at h
  rwa [headNotH_append_left (fun he => hl (by simpa using he))] at h

theorem lastNotH_dropWhile {p : Char → Bool} {l : List Char}
    (h : lastNotH l = true) : lastNotH (l.dropWhile p) = true := by
  induction l with
  | nil => simpa using h
  | cons c cs ih =>
    rw [List.dropWhile_cons]
    by_cases hp : p c
    · simp only [hp, if_true]
      rcases List.eq_nil_or_concat cs with hnil | _
      · subst hnil; rfl
      · exact ih (lastNotH_of_cons h (by rintro rfl; simp at *))
    · simpa [hp] using h

theorem headNotH_lowerAll {l : List Char} (h : headNotH l = true) :
    headNotH (lowerAll l) = true := by
  cases l with
  | nil => rfl
  | cons c cs =>
    simp only [headNotH, Bool.not_eq_eq_eq_not, Bool.not_true,
      decide_eq_false_iff_not] at h
    simp [lowerAll, headNotH, toLower_ne_hyph h]

theorem lastNotH_lowerAll {l : List Char} (h : lastNotH l = true) :
    lastNotH (lowerAll l) = true := by
  unfold lastNotH at h ⊢
  unfold lowerAll
  rw [← List.map_reverse]
  exact headNotH_lowerAll h

theorem eq_hyph_of_toLower {c : Char} (h : c.toLower = '-') : c = '-' := by
  by_contra hn
  exact toLower_ne_hyph hn h

theorem noDoubleB_lowerAll {l : List Char} (h : noDoubleB l = true) :
    noDoubleB (lowerAll l) = true := by
  rw [noDoubleB_iff_chain] at h ⊢
  unfold lowerAll
  rw [List.chain'_map]
  exact h.imp (fun _ _ hab hc =>
    hab ⟨eq_hyph_of_toLower hc.1, eq_hyph_of_toLower hc.2⟩)

/-- No doubled hyphen in a sanitized name. -/
theorem sanitizeList_noDouble (l : List Char) : noDoubleB (sanitizeList l) = true := by
  unfold sanitizeList dropLeadH dropTrailH
  apply noDoubleB_lowerAll
  apply noDoubleB_dropWhile
  apply noDoubleB_reverse
  apply noDoubleB_dropWhile
  apply noDoubleB_reverse
  exact noDoubleB_collapseHAux _ false

/-- No leading hyphen in a sanitized name. -/
theorem sanitizeList_headOK (l : List Char) : headNotH (sanitizeList l) = true := by
  unfold sanitizeList dropLeadH
  exact headNotH_lowerAll (headNotH_dropWhileH _)

/-- No trailing hyphen in a sanitized name. -/
theorem sanitizeList_lastOK (l : List Char) : lastNotH (sanitizeList l) = true := by
  unfold sanitizeList dropLeadH
  apply lastNotH_lowerAll
  apply lastNotH_dropWhile
  unfold dropTrailH lastNotH
  rw [List.reverse_reverse]
  exact headNotH_dropWhileH _

/-- Combined shape invariant: every non-empty sanitized name matches the
kebab pattern of the spec. -/
theorem sanitizeList_shape (l : List Char) (h : ¬sanitizeList l = []) :
    kebabShapeB (sanitizeList l) = true := by
  unfold kebabShapeB
  rw [Bool.and_eq_true, Bool.and_eq_true, Bool.and_eq_true, Bool.and_eq_true]
  refine ⟨⟨⟨⟨?_, sanitizeList_all_kebab l⟩, sanitizeList_noDouble l⟩,
    sanitizeList_headOK l⟩, sanitizeList_lastOK l⟩
  simpa using h

/-! ### Idempotence of the sanitizer on already-sanitized input -/

theorem alnum_of_kebab_not_hyph {c : Char} (h : isKebabChar c = true)
    (hne : ¬c = '-') : isAlnumA c = true := by
  simp only [isKebabChar, Bool.or_eq_true] at h
  rcases h with (h1 | h2) | h3
  · simp only [isLowerA, Bool.and_eq_true, decide_eq_true_eq] at h1
    simp only [isAlnumA, Bool.or_eq_true, Bool.and_eq_true, decide_eq_true_eq]
    exact Or.inl (Or.inl h1)
  · simp only [isDigitA, Bool.and_eq_true, decide_eq_true_eq] at h2
    simp only [isAlnumA, Bool.or_eq_true, Bool.and_eq_true, decide_eq_true_eq]
    exact Or.inr h2
  · simp only [decide_eq_true_eq] at h3
    exact absurd h3 hne

theorem replRuns_true_alnum_head {c : Char} {cs : List Char}
    (h : isAlnumA c = true) : replRuns (c :: cs) true = replRuns (c :: cs) false := by
  simp [replRuns, h]

theorem replRuns_eq_self {l : List Char} (hk : l.all isKebabChar = true)
    (hd : noDoubleB l = true) : replRuns l false = l := by
  induction l with
  | nil => rfl
  | cons c cs ih =>
    rw [List.all_cons, Bool.and_eq_true] at hk
    have ihcs : replRuns cs false = cs := ih hk.2 (noDoubleB_tail hd)
    by_cases hc : c = '-'
    · subst hc
      rw [replRuns, if_neg (by decide), if_neg (by simp)]
      congr 1
      have hh := (noDoubleB_cons.mp hd).1 rfl
      cases cs with
      | nil => rfl
      | cons x xs =>
        simp only [headNotH, Bool.not_eq_eq_eq_not, Bool.not_true,
          decide_eq_false_iff_not] at hh
        have hkx : isKebabChar x = true := by
          have h2 := hk.2
          rw [List.all_cons, Bool.and_eq_true] at h2
          exact h2.1
        have hx : isAlnumA x = true := alnum_of_kebab_not_hyph hkx hh
        rw [replRuns_true_alnum_head hx]
        exact ihcs
    · have ha : isAlnumA c = true := alnum_of_kebab_not_hyph hk.1 hc
      rw [replRuns, if_pos ha, ihcs]

theorem collapseHAux_true_of_headOK {l : List Char} (h : headNotH l = true) :
    collapseHAux l true = collapseHAux l false := by
  cases l with
  | nil => rfl
  | cons x xs =>
    simp only [headNotH, Bool.not_eq_eq_eq_not, Bool.not_true,
      decide_eq_false_iff_not] at h
    rw [collapseHAux, collapseHAux, if_neg h, if_neg h]

theorem collapseH_eq_self {l : List Char} (hd : noDoubleB l = true) :
    collapseH l = l := by
  unfold collapseH
  induction l with
  | nil => rfl
  | cons c cs ih =>
    have ihcs : collapseHAux cs false = cs := ih (noDoubleB_tail hd)
    by_cases hc : c = '-'
    · subst hc
      rw [collapseHAux, if_pos rfl]
      simp only [Bool.false_eq_true, if_false]
      rw [collapseHAux_true_of_headOK ((noDoubleB_cons.mp hd).1 rfl), ihcs]
    · rw [collapseHAux, if_neg hc, ihcs]

theorem dropWhileH_eq_self {l : List Char} (h : headNotH l = true) :
    l.dropWhile (fun c => c = '-') = l := by
  cases l with
  | nil => rfl
  | cons c cs =>
    simp only [headNotH, Bool.not_eq_eq_eq_not, Bool.not_true,
      decide_eq_false_iff_not] at h
    simp [List.dropWhile_cons, h]

theorem dropTrailH_eq_self {l : List Char} (h : lastNotH l = true) :
    dropTrailH l = l := by
  unfold dropTrailH
  rw [dropWhileH_eq_self h, List.reverse_reverse]

theorem dropLeadH_eq_self {l : List Char} (h : headNotH l = true) :
    dropLeadH l = l := dropWhileH_eq_self h

theorem lowerAll_eq_self {l : List Char} (hk : l.all isKebabChar = true) :
    lowerAll l = l := by
  unfold lowerAll
  rw [List.all_eq_true] at hk
  calc l.map Char.toLower = l.map id := by
        apply List.map_congr_left
        intro c hc
        exact toLower_of_kebab (hk c hc)
    _ = l := List.map_id l

/-- Idempotence of the post-pinyin sanitizer chain. -/
theorem sanitizeList_idem (l : List Char) :
    sanitizeList (sanitizeList l) = sanitizeList l := by
  have hk := sanitizeList_all_kebab l
  have hd := sanitizeList_noDouble l
  have hh := sanitizeList_headOK l
  have ht := sanitizeList_lastOK l
  generalize hb : sanitizeList l = b at hk hd hh ht ⊢
  show lowerAll (dropLeadH (dropTrailH (collapseH (replRuns b false)))) = b
  rw [replRuns_eq_self hk hd, collapseH_eq_self hd, dropTrailH_eq_self ht,
    dropLeadH_eq_self hh, lowerAll_eq_self hk]

/-- The data of a `String.mk` is the underlying list. -/
theorem data_mk (l : List Char) : (String.mk l).data = l := rfl

/-- Idempotence of the full `sanitizeFileName` under the assumption —
true of the pinyin library — that the transliteration is the identity on
strings of safe characters. -/
theorem sanitizeFileName_idem_helper (pin : String → String)
    (hpin : ∀ t : String, t.data.all isKebabChar = true → pin t = t)
    (s : String) :
    sanitizeFileName pin (sanitizeFileName pin s) = sanitizeFileName pin s := by
  unfold sanitizeFileName
  rw [hpin ⟨sanitizeList (pin s).data⟩ (by
    rw [data_mk]; exact sanitizeList_all_kebab _)]
  rw [data_mk, sanitizeList_idem]

/-- Applying `sanitizeFileName` to one of its own outputs is the identity. -/
theorem sanitizeFileName_fix (pin : String → String)
    (hpin : ∀ t : String, t.data.all isKebabChar = true → pin t = t)
    (s : String) :
    sanitizeFileName pin (sanitizeFileName pin s) = sanitizeFileName pin s :=
  sanitizeFileName_idem_helper pin hpin s

/-! ### PascalCase lemmas -/

theorem splitH_ne_nil : ∀ l : List Char, splitH l ≠ [] := by
  intro l
  induction l with
  | nil => simp [splitH]
  | cons c cs ih =>
    rw [splitH]
    by_cases hc : c = '-'
    · simp [hc]
    · rw [if_neg hc]
      cases hsp : splitH cs with
      | nil => exact absurd hsp ih
      | cons h t => simp [consHead]

theorem mem_consHead {c : Char} {r : List (List Char)} {seg : List Char}
    (h : seg ∈ consHead c r) :
    (r = [] ∧ seg = [c]) ∨
      (∃ h0 t, r = h0 :: t ∧ (seg = c :: h0 ∨ seg ∈ t)) := by
  cases r with
  | nil =>
    simp only [consHead, List.mem_singleton] at h
    exact Or.inl ⟨rfl, h⟩
  | cons h0 t =>
    simp only [consHead, List.mem_cons] at h
    exact Or.inr ⟨h0, t, rfl, h⟩

theorem mem_splitH_not_hyph :
    ∀ {l : List Char} {seg : List Char}, seg ∈ splitH l →
      ∀ {c : Char}, c ∈ seg → ¬c = '-' := by
  intro l
  induction l with
  | nil =>
    intro seg hseg c hc
    simp only [splitH, List.mem_singleton] at hseg
    subst hseg
    simp at hc
  | cons x xs ih =>
    intro seg hseg c hc
    rw [splitH] at hseg
    by_cases hx : x = '-'
    · rw [if_pos hx] at hseg
      rcases List.mem_cons.mp hseg with h1 | h2
      · subst h1; simp at hc
      · exact ih h2 hc
    · rw [if_neg hx] at hseg
      rcases mem_consHead hseg with ⟨_, h2⟩ | ⟨h0, t, hr, hseg2⟩
      · subst h2
        rw [List.mem_singleton] at hc
        exact hc ▸ hx
      · rcases hseg2 with h3 | h4
        · subst h3
          rcases List.mem_cons.mp hc with h5 | h6
          · exact h5 ▸ hx
          · exact ih (hr ▸ List.mem_cons_self _ _) h6
        · exact ih (hr ▸ List.mem_cons_of_mem _ h4) hc

theorem mem_capSeg {seg : List Char} {c : Char} (h : c ∈ capSeg seg)
    (hs : ∀ {d : Char}, d ∈ seg → ¬d = '-') : ¬c = '-' := by
  cases seg with
  | nil => simp [capSeg] at h
  | cons c0 r =>
    simp only [capSeg, List.mem_cons] at h
    rcases h with h1 | h2
    · exact h1 ▸ toUpper_ne_hyph (hs (List.mem_cons_self _ _))
    · rcases List.mem_map.mp h2 with ⟨d, hd, hdc⟩
      exact hdc ▸ toLower_ne_hyph (hs (List.mem_cons_of_mem _ hd))

/-- PascalCase output never contains a hyphen, whatever the input. -/
theorem pascalBody_hyphenFree (b : String) :
    hyphenFreeB (pascalBody b).data = true := by
  unfold hyphenFreeB pascalBody
  rw [data_mk, List.all_eq_true]
  intro c hc
  rcases List.mem_flatten.mp hc with ⟨seg2, hseg2, hcs⟩
  rcases List.mem_map.mp hseg2 with ⟨seg, hseg, hcap⟩
  have hmem : seg ∈ splitH b.data := (List.mem_filter.mp hseg).1
  simp only [Bool.not_eq_eq_eq_not, Bool.not_true, decide_eq_false_iff_not]
  exact mem_capSeg (hcap ▸ hcs) (fun hd => mem_splitH_not_hyph hmem hd)

/-- Re-sanitization inside `toPascalCase` is a no-op on names that are
already sanitized, so the source computation agrees with the direct
split-capitalize-join description of the spec. -/
theorem toPascalCase_of_sanitized (pin : String → String)
    (hpin : ∀ t : String, t.data.all isKebabChar = true → pin t = t)
    (s : String) :
    toPascalCase pin (sanitizeFileName pin s) = pascalOfSafe (sanitizeFileName pin s) := by
  unfold toPascalCase
  rw [sanitizeFileName_idem_helper pin hpin]
  rfl

/-! ### Scanner combinator lemmas -/

theorem stripPre_self (p r : List Char) : stripPre p (p ++ r) = some r := by
  induction p with
  | nil => simp [stripPre]
  | cons c cs ih => simp [stripPre, ih]

theorem stripPre_some_eq : ∀ {p l r : List Char}, stripPre p l = some r → l = p ++ r := by
  intro p
  induction p with
  | nil =>
    intro l r h
    simpa [stripPre] using h
  | cons c cs ih =>
    intro l r h
    cases l with
    | nil => simp [stripPre] at h
    | cons x xs =>
      rw [stripPre] at h
      by_cases hx : x = c
      · rw [if_pos hx] at h
        rw [List.cons_append, ← ih h, hx]
      · rw [if_neg hx] at h
        exact absurd h (by simp)

theorem stripPre_sfx {p l r : List Char} (h : stripPre p l = some r) : r <:+ l :=
  ⟨p, (stripPre_some_eq h).symm⟩

theorem dropWhile_sfx (p : Char → Bool) (l : List Char) : l.dropWhile p <:+ l := by
  induction l with
  | nil => exact List.suffix_rfl
  | cons c cs ih =>
    rw [List.dropWhile_cons]
    by_cases hc : p c
    · simp only [hc, if_true]
      exact ih.trans (List.suffix_cons c cs)
    · simp [hc]

theorem takeWhile1_sfx {p : Char → Bool} {l a r : List Char}
    (h : takeWhile1 p l = some (a, r)) : r <:+ l := by
  unfold takeWhile1 at h
  by_cases he : (l.takeWhile p).isEmpty
  · simp [he] at h
  · simp only [he, Bool.false_eq_true, if_false, Option.some.injEq, Prod.mk.injEq] at h
    exact h.2 ▸ dropWhile_sfx p l

theorem takeWhile1_eq {p : Char → Bool} {l a r : List Char}
    (h : takeWhile1 p l = some (a, r)) :
    a = l.takeWhile p ∧ r = l.dropWhile p ∧ ¬a = [] := by
  unfold takeWhile1 at h
  by_cases he : (l.takeWhile p).isEmpty
  · simp [he] at h
  · simp only [he, Bool.false_eq_true, if_false, Option.some.injEq, Prod.mk.injEq] at h
    refine ⟨h.1.symm, h.2.symm, ?_⟩
    rw [h.1] at he
    simpa using he

theorem takeWhile_append_stop {p : Char → Bool} {a : List Char} {c : Char} {r : List Char}
    (ha : a.all p = true) (hc : p c = false) :
    (a ++ c :: r).takeWhile p = a ∧ (a ++ c :: r).dropWhile p = c :: r := by
  induction a with
  | nil => simp [List.takeWhile_cons, List.dropWhile_cons, hc]
  | cons x xs ih =>
    rw [List.all_cons, Bool.and_eq_true] at ha
    have := ih ha.2
    simp [List.takeWhile_cons, List.dropWhile_cons, ha.1, this.1, this.2]

theorem takeWhile1_append {p : Char → Bool} {a : List Char} {c : Char} {r : List Char}
    (hne : ¬a = []) (ha : a.all p = true) (hc : p c = false) :
    takeWhile1 p (a ++ c :: r) = some (a, c :: r) := by
  have h := takeWhile_append_stop (r := r) ha hc
  unfold takeWhile1
  rw [h.1, h.2]
  simp [hne]

theorem word_not_space {c : Char} (h : isWordCh c = true) : jsSpace c = false := by
  simp only [isWordCh, isAlnumA, Bool.or_eq_true, Bool.and_eq_true, decide_eq_true_eq] at h
  simp only [jsSpace, Bool.or_eq_false_iff, decide_eq_false_iff_not]
  rcases h with ((⟨h1, _⟩ | ⟨h1, _⟩) | ⟨h1, _⟩) | h2
  all_goals {
    refine ⟨⟨⟨⟨⟨?_, ?_⟩, ?_⟩, ?_⟩, ?_⟩, ?_⟩ <;>
      intro he <;>
      first
        | (have hnn := congrArg Char.toNat he; simp at hnn; omega)
        | (subst h2; exact absurd he (by decide))
  }

theorem dropWhile_append_word {a : List Char} (r : List Char) (hne : ¬a = [])
    (ha : a.all isWordCh = true) : List.dropWhile jsSpace (a ++ r) = a ++ r := by
  cases a with
  | nil => exact absurd rfl hne
  | cons x xs =>
    rw [List.all_cons, Bool.and_eq_true] at ha
    simp [List.dropWhile_cons, word_not_space ha.1]

/-! ### Facts about the export-line matcher and scanner -/

theorem quoteStep_sfx {l r : List Char} (h : quoteStep l = some r) : r <:+ l := by
  cases l with
  | nil => simp [quoteStep] at h
  | cons q rest =>
    rw [quoteStep] at h
    by_cases hq : isQuoteCh q = true
    · rw [if_pos hq] at h
      cases h
      exact List.suffix_cons q r
    · rw [if_neg hq] at h
      exact absurd h (by simp)

theorem tryExport_some_facts {l : List Char} {w s : String} {rest : List Char}
    (h : tryExport l = some (w, s, rest)) :
    ("export".data <+: l) ∧ rest.length < l.length := by
  unfold tryExport at h
  cases h1 : stripPre "export".data l with
  | none => rw [h1] at h; simp at h
  | some l1 =>
  rw [h1] at h
  simp only [Option.some_bind] at h
  have hpre : l = "export".data ++ l1 := stripPre_some_eq h1
  refine ⟨⟨l1, hpre.symm⟩, ?_⟩
  have hlen : l.length = 6 + l1.length := by
    rw [hpre, List.length_append]
    rfl
  suffices hs : rest <:+ l1 by
    have := hs.length_le
    omega
  cases h2 : stripPre ['\x7b'] (List.dropWhile jsSpace l1) with
  | none => rw [h2] at h; simp at h
  | some l3 =>
  rw [h2] at h
  simp only [Option.some_bind] at h
  have s3 : l3 <:+ l1 := (stripPre_sfx h2).trans (dropWhile_sfx _ _)
  cases h3 : takeWhile1 isWordCh (List.dropWhile jsSpace l3) with
  | none => rw [h3] at h; simp at h
  | some wl =>
  rw [h3] at h
  simp only [Option.some_bind] at h
  have s5 : wl.2 <:+ l3 := (takeWhile1_sfx (l := List.dropWhile jsSpace l3)
    (by rw [h3]) : wl.2 <:+ _).trans (dropWhile_sfx _ _)
  cases h4 : stripPre ['\x7d'] (List.dropWhile jsSpace wl.2) with
  | none => rw [h4] at h; simp at h
  | some l7 =>
  rw [h4] at h
  simp only [Option.some_bind] at h
  have s7 : l7 <:+ wl.2 := (stripPre_sfx h4).trans (dropWhile_sfx _ _)
  cases h5 : stripPre "from".data (List.dropWhile jsSpace l7) with
  | none => rw [h5] at h; simp at h
  | some l9 =>
  rw [h5] at h
  simp only [Option.some_bind] at h
  have s9 : l9 <:+ l7 := (stripPre_sfx h5).trans (dropWhile_sfx _ _)
  cases h6 : quoteStep (List.dropWhile jsSpace l9) with
  | none => rw [h6] at h; simp at h
  | some l11 =>
  rw [h6] at h
  simp only [Option.some_bind] at h
  have s11 : l11 <:+ l9 := (quoteStep_sfx h6).trans (dropWhile_sfx _ _)
  cases h7 : stripPre "./icons/".data l11 with
  | none => rw [h7] at h; simp at h
  | some l12 =>
  rw [h7] at h
  simp only [Option.some_bind] at h
  have s12 : l12 <:+ l11 := stripPre_sfx h7
  cases h8 : takeWhile1 nonQuote l12 with
  | none => rw [h8] at h; simp at h
  | some ul =>
  rw [h8] at h
  simp only [Option.some_bind] at h
  have s13 : ul.2 <:+ l12 := takeWhile1_sfx (l := l12) (by rw [h8])
  cases h9 : jsGuard ul.1 with
  | none => rw [h9] at h; simp at h
  | some u0 =>
  rw [h9] at h
  simp only [Option.some_bind] at h
  cases h10 : quoteStep ul.2 with
  | none => rw [h10] at h; simp at h
  | some l14 =>
  rw [h10] at h
  simp only [Option.some_bind, Option.some.injEq, Prod.mk.injEq] at h
  have hrest : rest = l14 := h.2.2.symm
  subst hrest
  have s14 : rest <:+ ul.2 := quoteStep_sfx h10
  exact (((((s14.trans s13).trans s12).trans s11).trans s9).trans s7).trans
    (s5.trans s3)

theorem tryExport_none_of_no_pre {l : List Char}
    (h : ¬("export".data <+: l)) : tryExport l = none := by
  cases he : tryExport l with
  | none => rfl
  | some x =>
    obtain ⟨w, s, r⟩ := x
    exact absurd (tryExport_some_facts he).1 h

theorem scanExAux_congr : ∀ (f1 : Nat) {f2 : Nat} {l : List Char},
    l.length ≤ f1 → l.length ≤ f2 → scanExAux f1 l = scanExAux f2 l := by
  intro f1
  induction f1 with
  | zero =>
    intro f2 l h1 _
    have hl : l = [] := List.eq_nil_of_length_eq_zero (Nat.le_zero.mp h1)
    subst hl
    cases f2 <;> rfl
  | succ f ih =>
    intro f2 l h1 h2
    cases l with
    | nil => cases f2 <;> rfl
    | cons c cs =>
      cases f2 with
      | zero => simp at h2
      | succ g =>
        rw [scanExAux, scanExAux]
        cases he : tryExport (c :: cs) with
        | none =>
          show scanExAux f cs = scanExAux g cs
          have hcs1 : cs.length ≤ f := by
            simp only [List.length_cons] at h1
            omega
          have hcs2 : cs.length ≤ g := by
            simp only [List.length_cons] at h2
            omega
          exact ih hcs1 hcs2
        | some x =>
          obtain ⟨w, s, rest⟩ := x
          show (w, s) :: scanExAux f rest = (w, s) :: scanExAux g rest
          have hr := (tryExport_some_facts he).2
          simp only [List.length_cons] at h1 h2 hr
          congr 1
          exact ih (by omega) (by omega)

theorem scanEx_cons_none {c : Char} {cs : List Char}
    (h : tryExport (c :: cs) = none) : scanEx (c :: cs) = scanEx cs := by
  unfold scanEx
  show scanExAux (cs.length + 1) (c :: cs) = _
  rw [scanExAux, h]

theorem scanEx_cons_some {c : Char} {cs : List Char} {w s : String} {rest : List Char}
    (h : tryExport (c :: cs) = some (w, s, rest)) :
    scanEx (c :: cs) = (w, s) :: scanEx rest := by
  unfold scanEx
  show scanExAux (cs.length + 1) (c :: cs) = _
  rw [scanExAux, h]
  show (w, s) :: scanExAux cs.length rest = _
  congr 1
  have hr := (tryExport_some_facts h).2
  simp only [List.length_cons] at hr
  exact scanExAux_congr cs.length (by omega) (Nat.le_refl _)

theorem tryExport_line (e : IconInfo) (t : List Char) (he : wfInfo e) :
    tryExport (exportLineL e ++ t) =
      some (e.componentName, e.safeFileName, ';' :: t) := by
  obtain ⟨hC, hCw, hS, hSq⟩ := he
  have d1 : "export \x7b ".data = "export".data ++ [' ', '\x7b', ' '] := by decide
  have d2 : " \x7d from \x27./icons/".data =
      [' ', '\x7d', ' ', 'f', 'r', 'o', 'm', ' ', '\x27'] ++ "./icons/".data := by
    decide
  have d3 : ".js\x27;".data = ['.', 'j', 's'] ++ ['\x27', ';'] := by decide
  have harr : exportLineL e ++ t =
      "export".data ++ (' ' :: '\x7b' :: ' ' :: (e.componentName.data ++
        (' ' :: '\x7d' :: ' ' :: 'f' :: 'r' :: 'o' :: 'm' :: ' ' :: '\x27' ::
          ("./icons/".data ++ ((e.safeFileName.data ++ ['.', 'j', 's']) ++
            ('\x27' :: ';' :: t)))))) := by
    unfold exportLineL
    rw [d1, d2, d3]
    simp [List.append_assoc]
  have hne2 : ¬(e.safeFileName.data ++ ['.', 'j', 's']) = [] := by simp
  have hall2 : (e.safeFileName.data ++ ['.', 'j', 's']).all nonQuote = true := by
    rw [List.all_append, Bool.and_eq_true]
    exact ⟨hSq, by decide⟩
  have hsub : (e.safeFileName.data ++ ['.', 'j', 's']).length - 3 =
      e.safeFileName.data.length := by
    simp
  have hg : jsGuard (e.safeFileName.data ++ ['.', 'j', 's']) = some () := by
    unfold jsGuard
    rw [if_pos]
    rw [Bool.and_eq_true, decide_eq_true_eq, decide_eq_true_eq, hsub,
      List.drop_left, List.length_append]
    refine ⟨?_, by decide⟩
    have := List.length_pos.mpr hS
    simp only [List.length_cons, List.length_nil]
    omega
  rw [harr]
  unfold tryExport
  rw [stripPre_self]
  simp only [Option.some_bind]
  rw [show List.dropWhile jsSpace (' ' :: '\x7b' :: ' ' :: (e.componentName.data ++
      (' ' :: '\x7d' :: ' ' :: 'f' :: 'r' :: 'o' :: 'm' :: ' ' :: '\x27' ::
        ("./icons/".data ++ ((e.safeFileName.data ++ ['.', 'j', 's']) ++
          ('\x27' :: ';' :: t)))))) = '\x7b' :: ' ' :: (e.componentName.data ++
      (' ' :: '\x7d' :: ' ' :: 'f' :: 'r' :: 'o' :: 'm' :: ' ' :: '\x27' ::
        ("./icons/".data ++ ((e.safeFileName.data ++ ['.', 'j', 's']) ++
          ('\x27' :: ';' :: t))))) from rfl]
  rw [show stripPre ['\x7b'] ('\x7b' :: ' ' :: (e.componentName.data ++
      (' ' :: '\x7d' :: ' ' :: 'f' :: 'r' :: 'o' :: 'm' :: ' ' :: '\x27' ::
        ("./icons/".data ++ ((e.safeFileName.data ++ ['.', 'j', 's']) ++
          ('\x27' :: ';' :: t)))))) = some (' ' :: (e.componentName.data ++
      (' ' :: '\x7d' :: ' ' :: 'f' :: 'r' :: 'o' :: 'm' :: ' ' :: '\x27' ::
        ("./icons/".data ++ ((e.safeFileName.data ++ ['.', 'j', 's']) ++
          ('\x27' :: ';' :: t)))))) from rfl]
  simp only [Option.some_bind]
  rw [show List.dropWhile jsSpace (' ' :: (e.componentName.data ++
      (' ' :: '\x7d' :: ' ' :: 'f' :: 'r' :: 'o' :: 'm' :: ' ' :: '\x27' ::
        ("./icons/".data ++ ((e.safeFileName.data ++ ['.', 'j', 's']) ++
          ('\x27' :: ';' :: t)))))) = List.dropWhile jsSpace
      (e.componentName.data ++ (' ' :: '\x7d' :: ' ' :: 'f' :: 'r' :: 'o' :: 'm' ::
        ' ' :: '\x27' :: ("./icons/".data ++ ((e.safeFileName.data ++
          ['.', 'j', 's']) ++ ('\x27' :: ';' :: t))))) from by
    rw [List.dropWhile_cons, if_pos (by decide : jsSpace ' ' = true)]]
  rw [dropWhile_append_word _ hC hCw]
  rw [takeWhile1_append hC hCw (by decide : isWordCh ' ' = false)]
  simp only [Option.some_bind]
  rw [show List.dropWhile jsSpace (' ' :: '\x7d' :: ' ' :: 'f' :: 'r' :: 'o' :: 'm' ::
      ' ' :: '\x27' :: ("./icons/".data ++ ((e.safeFileName.data ++
        ['.', 'j', 's']) ++ ('\x27' :: ';' :: t)))) = '\x7d' :: ' ' :: 'f' :: 'r' ::
      'o' :: 'm' :: ' ' :: '\x27' :: ("./icons/".data ++ ((e.safeFileName.data ++
        ['.', 'j', 's']) ++ ('\x27' :: ';' :: t))) from rfl]
  rw [show stripPre ['\x7d'] ('\x7d' :: ' ' :: 'f' :: 'r' :: 'o' :: 'm' :: ' ' ::
      '\x27' :: ("./icons/".data ++ ((e.safeFileName.data ++ ['.', 'j', 's']) ++
        ('\x27' :: ';' :: t)))) = some (' ' :: 'f' :: 'r' :: 'o' :: 'm' :: ' ' ::
      '\x27' :: ("./icons/".data ++ ((e.safeFileName.data ++ ['.', 'j', 's']) ++
        ('\x27' :: ';' :: t)))) from rfl]
  simp only [Option.some_bind]
  rw [show List.dropWhile jsSpace (' ' :: 'f' :: 'r' :: 'o' :: 'm' :: ' ' :: '\x27' ::
      ("./icons/".data ++ ((e.safeFileName.data ++ ['.', 'j', 's']) ++
        ('\x27' :: ';' :: t)))) = 'f' :: 'r' :: 'o' :: 'm' :: ' ' :: '\x27' ::
      ("./icons/".data ++ ((e.safeFileName.data ++ ['.', 'j', 's']) ++
        ('\x27' :: ';' :: t))) from rfl]
  rw [show stripPre "from".data ('f' :: 'r' :: 'o' :: 'm' :: ' ' :: '\x27' ::
      ("./icons/".data ++ ((e.safeFileName.data ++ ['.', 'j', 's']) ++
        ('\x27' :: ';' :: t)))) = some (' ' :: '\x27' :: ("./icons/".data ++
      ((e.safeFileName.data ++ ['.', 'j', 's']) ++ ('\x27' :: ';' :: t))))
    from rfl]
  simp only [Option.some_bind]
  rw [show List.dropWhile jsSpace (' ' :: '\x27' :: ("./icons/".data ++
      ((e.safeFileName.data ++ ['.', 'j', 's']) ++ ('\x27' :: ';' :: t)))) =
      '\x27' :: ("./icons/".data ++ ((e.safeFileName.data ++ ['.', 'j', 's']) ++
        ('\x27' :: ';' :: t))) from rfl]
  rw [show quoteStep ('\x27' :: ("./icons/".data ++ ((e.safeFileName.data ++
      ['.', 'j', 's']) ++ ('\x27' :: ';' :: t)))) = some ("./icons/".data ++
      ((e.safeFileName.data ++ ['.', 'j', 's']) ++ ('\x27' :: ';' :: t)))
    from rfl]
  simp only [Option.some_bind]
  rw [stripPre_self]
  simp only [Option.some_bind]
  rw [takeWhile1_append hne2 hall2 (by decide : nonQuote '\x27' = false)]
  simp only [Option.some_bind]
  rw [hg]
  simp only [Option.some_bind]
  rw [show quoteStep ('\x27' :: ';' :: t) = some (';' :: t) from rfl]
  simp only [Option.some_bind]
  rw [hsub, List.take_left]

theorem scanEx_line_cons (e : IconInfo) (t : List Char) (he : wfInfo e) :
    scanEx (exportLineL e ++ t) =
      (e.componentName, e.safeFileName) :: scanEx (';' :: t) := by
  have hmatch := tryExport_line e t he
  cases hcase : exportLineL e ++ t with
  | nil =>
    rw [hcase] at hmatch
    have : tryExport ([] : List Char) = none := by decide
    rw [this] at hmatch
    exact absurd hmatch (by simp)
  | cons c cs =>
    rw [hcase] at hmatch
    exact scanEx_cons_some hmatch

/-! ### Inert text skipping for the scanner -/

theorem not_export_pre_head {c : Char} {X : List Char} (hc : ¬c = 'e') :
    ¬("export".data <+: (c :: X)) := by
  rintro ⟨u, hu⟩
  have hex : "export".data = 'e' :: "xport".data := by decide
  rw [hex, List.cons_append] at hu
  injection hu with h1 _
  exact hc h1.symm

theorem noExB_tail {c : Char} {l : List Char} (h : noExB (c :: l) = true) :
    noExB l = true := by
  cases l with
  | nil => rfl
  | cons c2 r =>
    rw [noExB, Bool.and_eq_true] at h
    exact h.2

theorem noExB_no_export : ∀ {p : List Char}, noExB p = true →
    ∀ (t : List Char) (i : Nat), i < p.length →
      ¬("export".data <+: (p.drop i ++ t)) := by
  intro p
  induction p with
  | nil => intro _ t i hi; simp at hi
  | cons c1 rest ih =>
    intro h t i hi
    cases i with
    | zero =>
      rw [List.drop_zero, List.cons_append]
      cases rest with
      | nil =>
        apply not_export_pre_head
        intro hce
        rw [noExB, hce] at h
        simp at h
      | cons c2 r =>
        rintro ⟨u, hu⟩
        have hex : "export".data = 'e' :: 'x' :: "port".data := by decide
        rw [hex, List.cons_append, List.cons_append, List.cons_append] at hu
        injection hu with h1 hu2
        injection hu2 with h2 _
        rw [noExB, Bool.and_eq_true] at h
        have := h.1
        rw [← h1, ← h2] at this
        simp at this
    | succ j =>
      rw [List.drop_succ_cons]
      exact ih (noExB_tail h) t j (by
        simp only [List.length_cons] at hi
        omega)

theorem scanEx_append_of_inert {p t : List Char}
    (hp : ∀ i, i < p.length → ¬("export".data <+: (p.drop i ++ t))) :
    scanEx (p ++ t) = scanEx t := by
  induction p with
  | nil => simp
  | cons c cs ih =>
    have h0 := hp 0 (by simp)
    rw [List.drop_zero] at h0
    rw [List.cons_append]
    rw [scanEx_cons_none (tryExport_none_of_no_pre (by
      rwa [List.cons_append] at h0))]
    apply ih
    intro i hi
    have := hp (i + 1) (by
      simp only [List.length_cons]
      omega)
    rwa [List.drop_succ_cons] at this

theorem scanEx_append_noEx {p t : List Char} (hp : noExB p = true) :
    scanEx (p ++ t) = scanEx t :=
  scanEx_append_of_inert (fun i hi => noExB_no_export hp t i hi)

/-! ### Scanning the generated index -/

theorem scanEx_lines : ∀ (L : List IconInfo), (∀ e ∈ L, wfInfo e) →
    scanEx (joinNL (L.map exportLineL) ++ ['\n']) =
      L.map (fun e => (e.componentName, e.safeFileName)) := by
  intro L
  induction L with
  | nil =>
    intro _
    show scanEx ['\n'] = []
    decide
  | cons e L2 ih =>
    intro hwf
    cases L2 with
    | nil =>
      show scanEx (exportLineL e ++ ['\n']) = _
      rw [scanEx_line_cons e ['\n'] (hwf e (List.mem_cons_self _ _))]
      show _ = [(e.componentName, e.safeFileName)]
      rw [show scanEx [';', '\n'] = [] from by decide]
    | cons e2 L3 =>
      show scanEx ((exportLineL e ++ '\n' :: joinNL ((e2 :: L3).map exportLineL)) ++
        ['\n']) = _
      rw [List.append_assoc, List.cons_append]
      rw [scanEx_line_cons e _ (hwf e (List.mem_cons_self _ _))]
      have hskip : scanEx (';' :: '\n' ::
          (joinNL ((e2 :: L3).map exportLineL) ++ ['\n'])) =
          scanEx (joinNL ((e2 :: L3).map exportLineL) ++ ['\n']) := by
        show scanEx (([';', '\n']) ++ _) = _
        exact scanEx_append_noEx (by decide)
      rw [hskip, ih (fun x hx => hwf x (List.mem_cons_of_mem _ hx))]
      rfl

theorem noExB_header : noExB indexHeaderL = true := by decide

theorem scanEx_empty_index : scanEx emptyIndexL = [] := by decide

theorem sortIcons_perm (L : List IconInfo) : List.Perm (sortIcons L) L :=
  List.perm_insertionSort iconLe L

theorem lexLeB_total : ∀ a b : List Char, lexLeB a b = true ∨ lexLeB b a = true := by
  intro a
  induction a with
  | nil => intro b; exact Or.inl rfl
  | cons x xs ih =>
    intro b
    cases b with
    | nil => exact Or.inr rfl
    | cons y ys =>
      by_cases hxy : x = y
      · subst hxy
        rw [lexLeB, if_pos rfl, lexLeB, if_pos rfl]
        exact ih ys
      · rw [lexLeB, if_neg hxy, lexLeB, if_neg (fun h => hxy h.symm)]
        have hne : x.toNat ≠ y.toNat := fun h => hxy (by
          have hx := (Char.ofNat_toNat x).symm
          rw [h] at hx
          rw [hx, Char.ofNat_toNat])
        rcases Nat.lt_or_ge x.toNat y.toNat with h | h
        · exact Or.inl (by simpa using h)
        · exact Or.inr (by simp; omega)

theorem lexLeB_trans : ∀ {a b c : List Char}, lexLeB a b = true →
    lexLeB b c = true → lexLeB a c = true := by
  intro a
  induction a with
  | nil => intro b c _ _; rfl
  | cons x xs ih =>
    intro b c h1 h2
    cases b with
    | nil => simp [lexLeB] at h1
    | cons y ys =>
      cases c with
      | nil => simp [lexLeB] at h2
      | cons z zs =>
        rw [lexLeB] at h1 h2 ⊢
        by_cases hxy : x = y
        · subst hxy
          rw [if_pos rfl] at h1
          by_cases hyz : x = z
          · subst hyz
            rw [if_pos rfl] at h2 ⊢
            exact ih h1 h2
          · rw [if_neg hyz] at h2 ⊢
            exact h2
        · rw [if_neg hxy] at h1
          by_cases hyz : y = z
          · subst hyz
            rw [if_neg hxy]
            exact h1
          · rw [if_neg hyz] at h2
            have hxz : ¬x = z := by
              intro hc
              subst hc
              simp only [decide_eq_true_eq] at h1 h2
              omega
            rw [if_neg hxz]
            simp only [decide_eq_true_eq] at h1 h2 ⊢
            omega

theorem lexLeB_antisymm : ∀ {a b : List Char}, lexLeB a b = true →
    lexLeB b a = true → a = b := by
  intro a
  induction a with
  | nil =>
    intro b _ h2
    cases b with
    | nil => rfl
    | cons y ys => simp [lexLeB] at h2
  | cons x xs ih =>
    intro b h1 h2
    cases b with
    | nil => simp [lexLeB] at h1
    | cons y ys =>
      rw [lexLeB] at h1 h2
      by_cases hxy : x = y
      · subst hxy
        rw [if_pos rfl] at h1 h2
        rw [ih h1 h2]
      · rw [if_neg hxy] at h1
        rw [if_neg (fun h => hxy h.symm)] at h2
        simp only [decide_eq_true_eq] at h1 h2
        omega

theorem iconLe_total : ∀ a b : IconInfo, iconLe a b ∨ iconLe b a := fun a b =>
  lexLeB_total a.safeFileName.data b.safeFileName.data

theorem iconLe_trans : ∀ {a b c : IconInfo}, iconLe a b → iconLe b c → iconLe a c :=
  fun h1 h2 => lexLeB_trans h1 h2

theorem strLe_antisymm {a b : String} (h1 : strLe a b) (h2 : strLe b a) : a = b := by
  cases a with
  | mk da =>
    cases b with
    | mk db =>
      exact congrArg String.mk (lexLeB_antisymm h1 h2)

theorem sortIcons_sorted (L : List IconInfo) : (sortIcons L).Sorted iconLe := by
  haveI : IsTotal IconInfo iconLe := ⟨iconLe_total⟩
  haveI : IsTrans IconInfo iconLe := ⟨fun _ _ _ => iconLe_trans⟩
  exact List.sorted_insertionSort iconLe L

/-- The scan of a generated index recovers exactly the sorted entry list,
in order. -/
theorem scanEx_generateIndex (L : List IconInfo) (hwf : ∀ e ∈ L, wfInfo e) :
    scanEx (generateIndexL L) =
      (sortIcons L).map (fun e => (e.componentName, e.safeFileName)) := by
  by_cases hL : L = []
  · subst hL
    show scanEx emptyIndexL = _
    rw [scanEx_empty_index]
    rfl
  · unfold generateIndexL
    rw [if_neg (by simpa using hL)]
    rw [List.append_assoc]
    rw [scanEx_append_noEx noExB_header]
    exact scanEx_lines (sortIcons L) (fun e hemem =>
      hwf e ((sortIcons_perm L).mem_iff.mp hemem))

/-! ### The manifest map: jsSet / jsDelete / buildMap -/

theorem jsSet_of_not_mem {m : List IconInfo} {e : IconInfo}
    (h : e.safeFileName ∉ keysOf m) : jsSet m e = m ++ [e] := by
  induction m with
  | nil => rfl
  | cons x xs ih =>
    simp only [keysOf, List.map_cons, List.mem_cons] at h
    push_neg at h
    rw [jsSet, if_neg (fun hx => h.1 hx.symm), ih (by simpa [keysOf] using h.2)]
    rfl

theorem jsSet_of_mem {m : List IconInfo} {e : IconInfo}
    (hnd : (keysOf m).Nodup) (h : e ∈ m) : jsSet m e = m := by
  induction m with
  | nil => simp at h
  | cons x xs ih =>
    simp only [keysOf, List.map_cons, List.nodup_cons] at hnd
    rcases List.mem_cons.mp h with h1 | h2
    · rw [jsSet, if_pos (by rw [h1]), h1]
    · have hne : ¬x.safeFileName = e.safeFileName := by
        intro hx
        exact hnd.1 (hx ▸ List.mem_map_of_mem _ h2)
      rw [jsSet, if_neg hne, ih hnd.2 h2]

theorem keysOf_jsSet (m : List IconInfo) (e : IconInfo) :
    keysOf (jsSet m e) =
      if e.safeFileName ∈ keysOf m then keysOf m else keysOf m ++ [e.safeFileName] := by
  induction m with
  | nil => simp [jsSet, keysOf]
  | cons x xs ih =>
    by_cases hx : x.safeFileName = e.safeFileName
    · rw [jsSet, if_pos hx]
      simp [keysOf, hx]
    · rw [jsSet, if_neg hx]
      simp only [keysOf, List.map_cons] at ih ⊢
      rw [ih]
      by_cases hmem : e.safeFileName ∈ keysOf xs
      · simp only [keysOf] at hmem
        rw [if_pos hmem, if_pos (List.mem_cons_of_mem _ hmem)]
      · simp only [keysOf] at hmem
        rw [if_neg hmem, if_neg (by
          intro hc
          rcases List.mem_cons.mp hc with h1 | h2
          · exact hx h1.symm
          · exact hmem h2)]
        rfl

theorem keysOf_jsSet_nodup {m : List IconInfo} (e : IconInfo)
    (h : (keysOf m).Nodup) : (keysOf (jsSet m e)).Nodup := by
  rw [keysOf_jsSet]
  by_cases hmem : e.safeFileName ∈ keysOf m
  · rwa [if_pos hmem]
  · rw [if_neg hmem]
    simp [List.nodup_append, h, hmem]

theorem jsDelete_sublist (m : List IconInfo) (k : String) :
    (jsDelete m k).Sublist m := by
  induction m with
  | nil => simp [jsDelete]
  | cons x xs ih =>
    rw [jsDelete]
    by_cases hx : x.safeFileName = k
    · rw [if_pos hx]
      exact List.sublist_cons_self x xs
    · rw [if_neg hx]
      exact ih.cons₂ x

theorem keysOf_jsDelete_nodup {m : List IconInfo} (k : String)
    (h : (keysOf m).Nodup) : (keysOf (jsDelete m k)).Nodup :=
  List.Nodup.sublist ((jsDelete_sublist m k).map _) h

theorem jsDelete_eq_filter {m : List IconInfo} {k : String}
    (hnd : (keysOf m).Nodup) :
    jsDelete m k = m.filter (fun e => !decide (e.safeFileName = k)) := by
  induction m with
  | nil => rfl
  | cons x xs ih =>
    simp only [keysOf, List.map_cons, List.nodup_cons] at hnd
    by_cases hx : x.safeFileName = k
    · rw [jsDelete, if_pos hx, List.filter_cons_of_neg (by simp [hx])]
      have : ∀ e ∈ xs, ¬e.safeFileName = k := by
        intro e he hk
        exact hnd.1 (hx ▸ hk ▸ List.mem_map_of_mem _ he)
      rw [List.filter_eq_self.mpr (by
        intro e he
        simpa using this e he)]
    · rw [jsDelete, if_neg hx, List.filter_cons_of_pos (by simp [hx]),
        ih hnd.2]

theorem buildMap_eq_foldl (ps : List (String × String)) :
    buildMap ps = (ps.map (fun p => (⟨p.1, p.2⟩ : IconInfo))).foldl jsSet [] := by
  unfold buildMap
  rw [List.foldl_map]

theorem foldl_jsSet_acc (es : List IconInfo) :
    ∀ (m : List IconInfo), ((keysOf m ++ keysOf es).Nodup) →
      es.foldl jsSet m = m ++ es := by
  induction es with
  | nil => intro m _; simp
  | cons e es2 ih =>
    intro m hnd
    show es2.foldl jsSet (jsSet m e) = _
    have hkey : e.safeFileName ∉ keysOf m := by
      intro hc
      rw [List.nodup_append] at hnd
      exact hnd.2.2 hc (by simp [keysOf])
    rw [jsSet_of_not_mem hkey]
    rw [ih (m ++ [e]) (by
      simp only [keysOf, List.map_append, List.map_cons, List.map_nil] at hnd ⊢
      rw [List.append_assoc, List.singleton_append]
      exact hnd)]
    simp

/-- With pairwise-distinct safeFileNames, building the Map keeps exactly
the listed entries in order. -/
theorem buildMap_of_nodup (L : List IconInfo) (hnd : (keysOf L).Nodup) :
    buildMap (L.map (fun e => (e.componentName, e.safeFileName))) = L := by
  rw [buildMap_eq_foldl, List.map_map]
  have hid : (L.map ((fun p : String × String => (⟨p.1, p.2⟩ : IconInfo)) ∘
      (fun e => (e.componentName, e.safeFileName)))) = L := by
    calc L.map ((fun p : String × String => (⟨p.1, p.2⟩ : IconInfo)) ∘
          (fun e => (e.componentName, e.safeFileName))) =
        L.map id := List.map_congr_left (fun e _ => rfl)
      _ = L := List.map_id L
  rw [hid]
  have := foldl_jsSet_acc L [] (by simpa [keysOf] using hnd)
  simpa using this

/-- Parsing a freshly generated index recovers exactly the sorted entry
list when the safeFileNames are pairwise distinct. -/
theorem parseExistingIndex_generateIndex (L : List IconInfo)
    (hwf : ∀ e ∈ L, wfInfo e) (hnd : (keysOf L).Nodup) :
    parseExistingIndex (generateIndex L) = sortIcons L := by
  unfold parseExistingIndex generateIndex
  rw [data_mk, scanEx_generateIndex L hwf]
  apply buildMap_of_nodup
  exact (((sortIcons_perm L).map _).nodup_iff).mpr hnd

/-- Two sorted manifests over the same entries with duplicate-free keys
are equal — the generated index is a function of the entry set. -/
theorem sorted_nodup_eq : ∀ {l1 l2 : List IconInfo}, List.Perm l1 l2 →
    l1.Sorted iconLe → l2.Sorted iconLe → (keysOf l1).Nodup → l1 = l2 := by
  intro l1
  induction l1 with
  | nil =>
    intro l2 hp _ _ _
    exact (List.Perm.eq_nil hp.symm).symm
  | cons e t1 ih =>
    intro l2 hp hs1 hs2 hnd
    cases l2 with
    | nil =>
      have := hp.length_eq
      simp at this
    | cons f t2 =>
      have hef : e = f := by
        by_contra hne
        have hel2 : e ∈ f :: t2 := hp.mem_iff.mp (List.mem_cons_self _ _)
        have hfl1 : f ∈ e :: t1 := hp.mem_iff.mpr (List.mem_cons_self _ _)
        have he2 : e ∈ t2 := (List.mem_cons.mp hel2).resolve_left hne
        have hf1 : f ∈ t1 := (List.mem_cons.mp hfl1).resolve_left
          (fun h => hne h.symm)
        have h1 : iconLe e f := List.rel_of_sorted_cons hs1 f hf1
        have h2 : iconLe f e := List.rel_of_sorted_cons hs2 e he2
        have hkey : e.safeFileName = f.safeFileName := strLe_antisymm h1 h2
        simp only [keysOf, List.map_cons, List.nodup_cons] at hnd
        exact hnd.1 (by
          rw [hkey]
          exact List.mem_map_of_mem _ hf1)
      subst hef
      have ht := hp.cons_inv
      have hrec := ih ht hs1.of_cons hs2.of_cons (by
        simp only [keysOf, List.map_cons, List.nodup_cons] at hnd
        exact hnd.2)
      rw [hrec]

/-- The generated index depends only on the multiset of entries (with
duplicate-free keys). -/
theorem generateIndex_congr {L1 L2 : List IconInfo} (h : List.Perm L1 L2)
    (hnd : (keysOf L1).Nodup) : generateIndex L1 = generateIndex L2 := by
  have hsorteq : sortIcons L1 = sortIcons L2 := by
    apply sorted_nodup_eq
    · exact ((sortIcons_perm L1).trans h).trans (sortIcons_perm L2).symm
    · exact sortIcons_sorted L1
    · exact sortIcons_sorted L2
    · exact (((sortIcons_perm L1).map _).nodup_iff).mpr hnd
  unfold generateIndex generateIndexL
  by_cases h1 : L1 = []
  · subst h1
    rw [List.Perm.eq_nil h.symm]
  · have h2 : ¬L2 = [] := fun hc => h1 (List.Perm.eq_nil (hc ▸ h))
    rw [if_neg (by simpa using h1), if_neg (by simpa using h2), hsorteq]

/-! ### Entries recovered by the scanner are well-formed -/

theorem all_takeWhile (p : Char → Bool) : ∀ l : List Char, (l.takeWhile p).all p = true := by
  intro l
  induction l with
  | nil => rfl
  | cons c cs ih =>
    rw [List.takeWhile_cons]
    by_cases hc : p c
    · simp [hc, ih]
    · simp [hc]

theorem tryExport_wf {l : List Char} {w s : String} {rest : List Char}
    (h : tryExport l = some (w, s, rest)) : wfInfo ⟨w, s⟩ := by
  unfold tryExport at h
  cases h1 : stripPre "export".data l with
  | none => rw [h1] at h; simp at h
  | some l1 =>
  rw [h1] at h
  simp only [Option.some_bind] at h
  cases h2 : stripPre ['\x7b'] (List.dropWhile jsSpace l1) with
  | none => rw [h2] at h; simp at h
  | some l3 =>
  rw [h2] at h
  simp only [Option.some_bind] at h
  cases h3 : takeWhile1 isWordCh (List.dropWhile jsSpace l3) with
  | none => rw [h3] at h; simp at h
  | some wl =>
  rw [h3] at h
  simp only [Option.some_bind] at h
  obtain ⟨hw1, hw2, hw3⟩ := takeWhile1_eq (l := List.dropWhile jsSpace l3)
    (by rw [h3])
  cases h4 : stripPre ['\x7d'] (List.dropWhile jsSpace wl.2) with
  | none => rw [h4] at h; simp at h
  | some l7 =>
  rw [h4] at h
  simp only [Option.some_bind] at h
  cases h5 : stripPre "from".data (List.dropWhile jsSpace l7) with
  | none => rw [h5] at h; simp at h
  | some l9 =>
  rw [h5] at h
  simp only [Option.some_bind] at h
  cases h6 : quoteStep (List.dropWhile jsSpace l9) with
  | none => rw [h6] at h; simp at h
  | some l11 =>
  rw [h6] at h
  simp only [Option.some_bind] at h
  cases h7 : stripPre "./icons/".data l11 with
  | none => rw [h7] at h; simp at h
  | some l12 =>
  rw [h7] at h
  simp only [Option.some_bind] at h
  cases h8 : takeWhile1 nonQuote l12 with
  | none => rw [h8] at h; simp at h
  | some ul =>
  rw [h8] at h
  simp only [Option.some_bind] at h
  obtain ⟨hu1, hu2, hu3⟩ := takeWhile1_eq (l := l12) (by rw [h8])
  cases h9 : jsGuard ul.1 with
  | none => rw [h9] at h; simp at h
  | some u0 =>
  rw [h9] at h
  simp only [Option.some_bind] at h
  cases h10 : quoteStep ul.2 with
  | none => rw [h10] at h; simp at h
  | some l14 =>
  rw [h10] at h
  simp only [Option.some_bind, Option.some.injEq, Prod.mk.injEq] at h
  have hguard : 4 ≤ ul.1.length := by
    unfold jsGuard at h9
    by_cases hc : (decide (4 ≤ ul.1.length) &&
        decide (List.drop (ul.1.length - 3) ul.1 = ".js".data)) = true
    · rw [Bool.and_eq_true, decide_eq_true_eq] at hc
      exact hc.1
    · rw [if_neg hc] at h9
      exact absurd h9 (by simp)
  have hwq : w = ⟨wl.1⟩ := h.1.symm
  have hsq : s = ⟨ul.1.take (ul.1.length - 3)⟩ := h.2.1.symm
  subst hwq
  subst hsq
  refine ⟨by simpa using hw3, ?_, ?_, ?_⟩
  · show wl.1.all isWordCh = true
    rw [hw1]
    exact all_takeWhile _ _
  · show ¬(ul.1.take (ul.1.length - 3)) = []
    have : (ul.1.take (ul.1.length - 3)).length = ul.1.length - 3 := by
      rw [List.length_take]
      omega
    intro hc
    rw [hc] at this
    simp at this
    omega
  · show (ul.1.take (ul.1.length - 3)).all nonQuote = true
    rw [List.all_eq_true]
    intro c hc
    have hmem : c ∈ ul.1 := List.mem_of_mem_take hc
    rw [hu1] at hmem
    have := all_takeWhile nonQuote l12
    rw [List.all_eq_true] at this
    exact this c hmem

theorem scanExAux_wf : ∀ (f : Nat) (l : List Char) (p : String × String),
    p ∈ scanExAux f l → wfInfo ⟨p.1, p.2⟩ := by
  intro f
  induction f with
  | zero => intro l p hp; simp [scanExAux] at hp
  | succ g ih =>
    intro l p hp
    cases l with
    | nil => simp [scanExAux] at hp
    | cons c cs =>
      rw [scanExAux] at hp
      cases he : tryExport (c :: cs) with
      | none =>
        rw [he] at hp
        exact ih cs p hp
      | some x =>
        obtain ⟨w, s, rest⟩ := x
        rw [he] at hp
        rcases List.mem_cons.mp hp with h1 | h2
        · have := tryExport_wf he
          rw [h1]
          exact this
        · exact ih rest p h2

theorem scanEx_wf {l : List Char} {p : String × String} (hp : p ∈ scanEx l) :
    wfInfo ⟨p.1, p.2⟩ :=
  scanExAux_wf _ l p hp

theorem mem_jsSet {m : List IconInfo} {x e : IconInfo} (h : x ∈ jsSet m e) :
    x ∈ m ∨ x = e := by
  induction m with
  | nil => simpa [jsSet] using h
  | cons y ys ih =>
    rw [jsSet] at h
    by_cases hy : y.safeFileName = e.safeFileName
    · rw [if_pos hy] at h
      rcases List.mem_cons.mp h with h1 | h2
      · exact Or.inr h1
      · exact Or.inl (List.mem_cons_of_mem _ h2)
    · rw [if_neg hy] at h
      rcases List.mem_cons.mp h with h1 | h2
      · exact Or.inl (h1 ▸ List.mem_cons_self _ _)
      · rcases ih h2 with h3 | h4
        · exact Or.inl (List.mem_cons_of_mem _ h3)
        · exact Or.inr h4

theorem mem_buildMap_foldl : ∀ (ps : List (String × String)) (m : List IconInfo)
    (e : IconInfo), e ∈ ps.foldl (fun m p => jsSet m ⟨p.1, p.2⟩) m →
    e ∈ m ∨ ∃ p ∈ ps, e = ⟨p.1, p.2⟩ := by
  intro ps
  induction ps with
  | nil => intro m e h; exact Or.inl h
  | cons p ps2 ih =>
    intro m e h
    rcases ih _ e h with h1 | h2
    · rcases mem_jsSet h1 with h3 | h4
      · exact Or.inl h3
      · exact Or.inr ⟨p, List.mem_cons_self _ _, h4⟩
    · obtain ⟨q, hq1, hq2⟩ := h2
      exact Or.inr ⟨q, List.mem_cons_of_mem _ hq1, hq2⟩

theorem parseExistingIndex_wf (content : String) :
    ∀ e ∈ parseExistingIndex content, wfInfo e := by
  intro e he
  unfold parseExistingIndex buildMap at he
  rcases mem_buildMap_foldl _ _ _ he with h1 | h2
  · simp at h1
  · obtain ⟨p, hp1, hp2⟩ := h2
    rw [hp2]
    exact scanEx_wf hp1

theorem foldl_jsSet_keys_nodup : ∀ (ps : List (String × String))
    (m : List IconInfo), (keysOf m).Nodup →
    (keysOf (ps.foldl (fun m p => jsSet m ⟨p.1, p.2⟩) m)).Nodup := by
  intro ps
  induction ps with
  | nil => intro m h; exact h
  | cons p ps2 ih =>
    intro m h
    exact ih _ (keysOf_jsSet_nodup _ h)

theorem parseExistingIndex_keys_nodup (content : String) :
    (keysOf (parseExistingIndex content)).Nodup := by
  unfold parseExistingIndex buildMap
  exact foldl_jsSet_keys_nodup _ [] (by simp [keysOf])

theorem contains_iff_mem {l : List String} {a : String} :
    l.contains a = true ↔ a ∈ l := by simp

theorem data_append (a b : String) : (a ++ b).data = a.data ++ b.data := by
  cases a
  cases b
  rfl

theorem mk_data (s : String) : (⟨s.data⟩ : String) = s := by
  cases s
  rfl

theorem takeWhile_eq_self_of_all {p : Char → Bool} :
    ∀ {l : List Char}, l.all p = true → l.takeWhile p = l := by
  intro l
  induction l with
  | nil => intro _; rfl
  | cons c cs ih =>
    intro h
    rw [List.all_cons, Bool.and_eq_true] at h
    rw [List.takeWhile_cons, if_pos h.1, ih h.2]

theorem all_ne_slash {l : List Char}
    (h : l.all (fun c => !decide (c = '/')) = true) :
    l.all (fun c => decide (c ≠ '/')) = true := by
  rw [List.all_eq_true] at h ⊢
  intro c hc
  simpa [decide_not] using h c hc

theorem afterLastSlash_no_slash {l : List Char}
    (h : l.all (fun c => !decide (c = '/')) = true) : afterLastSlash l = l := by
  unfold afterLastSlash
  rw [takeWhile_eq_self_of_all (by rw [List.all_reverse]; exact all_ne_slash h),
    List.reverse_reverse]

theorem afterLastSlash_append {l1 l2 : List Char}
    (h : l2.all (fun c => !decide (c = '/')) = true) :
    afterLastSlash (l1 ++ '/' :: l2) = l2 := by
  unfold afterLastSlash
  rw [List.reverse_append, List.reverse_cons, List.append_assoc,
    List.singleton_append,
    (takeWhile_append_stop (by rw [List.all_reverse]; exact all_ne_slash h)
      (by decide)).1,
    List.reverse_reverse]

theorem splitSlash_no_slash : ∀ {l : List Char},
    l.all (fun c => !decide (c = '/')) = true → splitSlash l = [l] := by
  intro l
  induction l with
  | nil => intro _; rfl
  | cons c cs ih =>
    intro h
    rw [List.all_cons, Bool.and_eq_true] at h
    have hc : ¬c = '/' := by simpa using h.1
    rw [splitSlash, if_neg hc, ih h.2]
    rfl

theorem splitSlash_append : ∀ {l1 : List Char} (l2 : List Char),
    l1.all (fun c => !decide (c = '/')) = true →
    splitSlash (l1 ++ '/' :: l2) = l1 :: splitSlash l2 := by
  intro l1
  induction l1 with
  | nil =>
    intro l2 _
    rw [List.nil_append, splitSlash, if_pos rfl]
  | cons c cs ih =>
    intro l2 h
    rw [List.all_cons, Bool.and_eq_true] at h
    have hc : ¬c = '/' := by simpa using h.1
    rw [List.cons_append, splitSlash, if_neg hc, ih l2 h.2]
    rfl

theorem pathOf_data (ty : IconType) (n : String) :
    (pathOf ty n).data = (typeSeg ty).data ++ '/' :: n.data := by
  unfold pathOf
  rw [data_append, data_append, List.append_assoc]
  rfl

theorem typeSeg_no_slash (ty : IconType) :
    (typeSeg ty).data.all (fun c => !decide (c = '/')) = true := by
  cases ty <;> decide

theorem pathType_pathOf (ty : IconType) {n : String}
    (h : n.data.all (fun c => !decide (c = '/')) = true) :
    pathType (pathOf ty n) = ty := by
  unfold pathType
  rw [pathOf_data, splitSlash_append _ (typeSeg_no_slash ty), List.head?_cons]
  cases ty
  · exact if_neg (by decide)
  · exact if_pos (by decide)

theorem pathFile_pathOf (ty : IconType) {n : String}
    (h : n.data.all (fun c => !decide (c = '/')) = true) :
    pathFile (pathOf ty n) = n := by
  unfold pathFile
  rw [pathOf_data, splitSlash_append _ (typeSeg_no_slash ty),
    splitSlash_no_slash h]
  show (⟨[(typeSeg ty).data, n.data].getLastD []⟩ : String) = n
  rw [show [(typeSeg ty).data, n.data].getLastD [] = n.data from rfl]

theorem afterLastSlash_pathOf (ty : IconType) {n : String}
    (h : n.data.all (fun c => !decide (c = '/')) = true) :
    afterLastSlash (pathOf ty n).data = n.data := by
  rw [pathOf_data, afterLastSlash_append h]

theorem applyDirOp_idx (st : SysState) (op : FileOp) :
    (applyDirOp st op).idx = st.idx := by
  cases op with
  | add ty n => cases ty <;> rfl
  | del ty n => cases ty <;> rfl

theorem applyDirOp_out (st : SysState) (op : FileOp) :
    (applyDirOp st op).out = st.out := by
  cases op with
  | add ty n => cases ty <;> rfl
  | del ty n => cases ty <;> rfl

theorem dirOf_add_self (st : SysState) (ty : IconType) (n : String) :
    dirOf (applyDirOp st (.add ty n)) ty = insertName (dirOf st ty) n := by
  cases ty <;> rfl

theorem mem_insertName {l : List String} {n x : String} :
    x ∈ insertName l n ↔ x ∈ l ∨ x = n := by
  unfold insertName
  by_cases h : l.contains n = true
  · rw [if_pos h]
    have hn : n ∈ l := contains_iff_mem.mp h
    constructor
    · exact Or.inl
    · rintro (h1 | h1)
      · exact h1
      · exact h1 ▸ hn
  · rw [if_neg h]
    simp

theorem insertName_nodup {l : List String} {n : String} (h : l.Nodup) :
    (insertName l n).Nodup := by
  unfold insertName
  by_cases hc : l.contains n = true
  · rw [if_pos hc]
    exact h
  · rw [if_neg hc]
    refine List.Nodup.append h (List.nodup_singleton n) ?_
    intro a ha hb
    rw [List.mem_singleton] at hb
    subst hb
    exact hc (contains_iff_mem.mpr ha)

theorem mem_svgOnly {l : List String} {x : String} :
    x ∈ svgOnly l ↔ x ∈ l ∧ endsSvgB x = true := by
  unfold svgOnly
  rw [List.mem_filter]

theorem fbe_eq_map (pin : String → String) (noc col : List String) :
    fullBuildEntries pin noc col = (svgOnly noc ++ svgOnly col).map (mkEntry pin) := by
  unfold fullBuildEntries
  rw [List.map_append]

theorem keysOf_fullBuildEntries (pin : String → String) (noc col : List String) :
    keysOf (fullBuildEntries pin noc col) =
      (svgOnly noc ++ svgOnly col).map (toSafeFileName pin) := by
  rw [fbe_eq_map]
  unfold keysOf
  rw [List.map_map]
  rfl

theorem word_toUpper_of_alnum {c : Char} (h : isAlnumA c = true) :
    isWordCh c.toUpper = true := by
  by_cases hc : c.toNat ≥ 97 ∧ c.toNat ≤ 122
  · have he : c.toUpper = Char.ofNat (c.toNat - 32) := by
      simp only [Char.toUpper, if_pos hc]
    rw [he]
    have ht : (Char.ofNat (c.toNat - 32)).toNat = c.toNat - 32 :=
      char_toNat_ofNat (by omega)
    simp only [isWordCh, isAlnumA, Bool.or_eq_true, Bool.and_eq_true,
      decide_eq_true_eq, ht]
    exact Or.inl (Or.inl (Or.inr ⟨by omega, by omega⟩))
  · have he : c.toUpper = c := by simp only [Char.toUpper, if_neg hc]
    rw [he]
    simp only [isWordCh, Bool.or_eq_true]
    exact Or.inl h

theorem word_toLower_of_alnum {c : Char} (h : isAlnumA c = true) :
    isWordCh c.toLower = true := by
  by_cases hc : c.toNat ≥ 65 ∧ c.toNat ≤ 90
  · have he : c.toLower = Char.ofNat (c.toNat + 32) := by
      simp only [Char.toLower, if_pos hc]
    rw [he]
    have ht : (Char.ofNat (c.toNat + 32)).toNat = c.toNat + 32 :=
      char_toNat_ofNat (by omega)
    simp only [isWordCh, isAlnumA, Bool.or_eq_true, Bool.and_eq_true,
      decide_eq_true_eq, ht]
    exact Or.inl (Or.inl (Or.inl ⟨by omega, by omega⟩))
  · have he : c.toLower = c := by simp only [Char.toLower, if_neg hc]
    rw [he]
    simp only [isWordCh, Bool.or_eq_true]
    exact Or.inl h

theorem mem_splitH_mem : ∀ {l seg : List Char}, seg ∈ splitH l →
    ∀ {c : Char}, c ∈ seg → c ∈ l := by
  intro l
  induction l with
  | nil =>
    intro seg hseg c hc
    simp only [splitH, List.mem_singleton] at hseg
    subst hseg
    simp at hc
  | cons x xs ih =>
    intro seg hseg c hc
    rw [splitH] at hseg
    by_cases hx : x = '-'
    · rw [if_pos hx] at hseg
      rcases List.mem_cons.mp hseg with h1 | h2
      · subst h1
        simp at hc
      · exact List.mem_cons_of_mem _ (ih h2 hc)
    · rw [if_neg hx] at hseg
      rcases mem_consHead hseg with ⟨_, h2⟩ | ⟨h0, t, hr, hseg2⟩
      · subst h2
        rw [List.mem_singleton] at hc
        exact hc ▸ List.mem_cons_self _ _
      · rcases hseg2 with h3 | h4
        · subst h3
          rcases List.mem_cons.mp hc with h5 | h6
          · exact h5 ▸ List.mem_cons_self _ _
          · exact List.mem_cons_of_mem _ (ih (hr ▸ List.mem_cons_self _ _) h6)
        · exact List.mem_cons_of_mem _ (ih (hr ▸ List.mem_cons_of_mem _ h4) hc)

theorem capSeg_word {seg : List Char} {c : Char} (h : c ∈ capSeg seg)
    (hs : ∀ d ∈ seg, isAlnumA d = true) : isWordCh c = true := by
  cases seg with
  | nil => simp [capSeg] at h
  | cons c0 r =>
    simp only [capSeg, List.mem_cons] at h
    rcases h with h1 | h2
    · exact h1 ▸ word_toUpper_of_alnum (hs c0 (List.mem_cons_self _ _))
    · rcases List.mem_map.mp h2 with ⟨d, hd, hdc⟩
      exact hdc ▸ word_toLower_of_alnum (hs d (List.mem_cons_of_mem _ hd))

theorem pascalBody_all_word (b : String) (hk : b.data.all isKebabChar = true) :
    (pascalBody b).data.all isWordCh = true := by
  unfold pascalBody
  rw [data_mk, List.all_eq_true]
  intro c hc
  rcases List.mem_flatten.mp hc with ⟨seg2, hseg2, hcs⟩
  rcases List.mem_map.mp hseg2 with ⟨seg, hseg, hcap⟩
  have hmem : seg ∈ splitH b.data := (List.mem_filter.mp hseg).1
  refine capSeg_word (hcap ▸ hcs) ?_
  intro d hd
  have hdb : d ∈ b.data := mem_splitH_mem hmem hd
  rw [List.all_eq_true] at hk
  exact alnum_of_kebab_not_hyph (hk d hdb) (mem_splitH_not_hyph hmem hd)

theorem nonQuote_of_kebab {c : Char} (h : isKebabChar c = true) :
    nonQuote c = true := by
  have h1 : ¬c = '\x27' := by
    intro he
    subst he
    exact absurd h (by decide)
  have h2 : ¬c = '\x22' := by
    intro he
    subst he
    exact absurd h (by decide)
  simp [nonQuote, isQuoteCh, h1, h2]

theorem data_ne_nil_of_not_isEmpty {s : String} (h : s.isEmpty = false) :
    ¬s.data = [] := by
  intro hd
  cases s with
  | mk d =>
    rw [data_mk] at hd
    subst hd
    exact absurd h (by decide)

theorem toSafeFileName_all_kebab (pin : String → String) (n : String) :
    (toSafeFileName pin n).data.all isKebabChar = true := by
  show (⟨sanitizeList (pin ⟨stripSvgExt (afterLastSlash n.data)⟩).data⟩ :
    String).data.all isKebabChar = true
  rw [data_mk]
  exact sanitizeList_all_kebab _

theorem mkEntry_wf (pin : String → String) (n : String)
    (hne : ¬(toSafeFileName pin n).data = []) : wfInfo (mkEntry pin n) := by
  refine ⟨?_, ?_, hne, ?_⟩
  · show ¬("QxIcon" ++ toPascalCase pin (toSafeFileName pin n)).data = []
    rw [data_append]
    simp
  · show ("QxIcon" ++ toPascalCase pin (toSafeFileName pin n)).data.all
      isWordCh = true
    rw [data_append, List.all_append, Bool.and_eq_true]
    constructor
    · decide
    · show (pascalBody (sanitizeFileName pin (toSafeFileName pin n))).data.all
        isWordCh = true
      apply pascalBody_all_word
      show (⟨sanitizeList (pin (toSafeFileName pin n)).data⟩ :
        String).data.all isKebabChar = true
      rw [data_mk]
      exact sanitizeList_all_kebab _
  · show (toSafeFileName pin n).data.all nonQuote = true
    have hk := toSafeFileName_all_kebab pin n
    rw [List.all_eq_true] at hk ⊢
    intro c hcmem
    exact nonQuote_of_kebab (hk c hcmem)

theorem plainSvgName_parts {n : String} (h : plainSvgName n = true) :
    endsSvgB n = true ∧ n.data.all (fun c => !decide (c = '/')) = true := by
  unfold plainSvgName at h
  rw [Bool.and_eq_true] at h
  exact h

theorem applyDirOp_nodup {st : SysState} (h1 : st.noc.Nodup)
    (h2 : st.col.Nodup) (op : FileOp) :
    (applyDirOp st op).noc.Nodup ∧ (applyDirOp st op).col.Nodup := by
  cases op with
  | add ty n =>
    cases ty
    · exact ⟨insertName_nodup h1, h2⟩
    · exact ⟨h1, insertName_nodup h2⟩
  | del ty n =>
    cases ty
    · exact ⟨List.Nodup.erase n h1, h2⟩
    · exact ⟨h1, List.Nodup.erase n h2⟩

theorem mem_files_add {st : SysState} {ty : IconType} {n f : String}
    (hsvg : endsSvgB n = true) :
    f ∈ svgOnly (applyDirOp st (.add ty n)).noc ++
        svgOnly (applyDirOp st (.add ty n)).col ↔
      f ∈ svgOnly st.noc ++ svgOnly st.col ∨ f = n := by
  cases ty
  · show f ∈ svgOnly (insertName st.noc n) ++ svgOnly st.col ↔ _
    simp only [List.mem_append, mem_svgOnly, mem_insertName]
    constructor
    · rintro (⟨h1 | h1, h2⟩ | h3)
      · exact Or.inl (Or.inl ⟨h1, h2⟩)
      · exact Or.inr h1
      · exact Or.inl (Or.inr h3)
    · rintro ((⟨h1, h2⟩ | h1) | h1)
      · exact Or.inl ⟨Or.inl h1, h2⟩
      · exact Or.inr h1
      · exact Or.inl ⟨Or.inr h1, h1 ▸ hsvg⟩
  · show f ∈ svgOnly st.noc ++ svgOnly (insertName st.col n) ↔ _
    simp only [List.mem_append, mem_svgOnly, mem_insertName]
    constructor
    · rintro (⟨h1, h2⟩ | ⟨h1 | h1, h2⟩)
      · exact Or.inl (Or.inl ⟨h1, h2⟩)
      · exact Or.inl (Or.inr ⟨h1, h2⟩)
      · exact Or.inr h1
    · rintro ((⟨h1, h2⟩ | ⟨h1, h2⟩) | h1)
      · exact Or.inl ⟨h1, h2⟩
      · exact Or.inr ⟨Or.inl h1, h2⟩
      · exact Or.inr ⟨Or.inr h1, h1 ▸ hsvg⟩

theorem mem_files_del {st : SysState} {ty : IconType} {n f : String}
    (hnoc : st.noc.Nodup) (hcol : st.col.Nodup)
    (hfilesN : (svgOnly st.noc ++ svgOnly st.col).Nodup)
    (hsvg : endsSvgB n = true) (hmem : n ∈ dirOf st ty) :
    f ∈ svgOnly (applyDirOp st (.del ty n)).noc ++
        svgOnly (applyDirOp st (.del ty n)).col ↔
      (f ∈ svgOnly st.noc ++ svgOnly st.col) ∧ ¬f = n := by
  rw [List.nodup_append] at hfilesN
  cases ty
  · show f ∈ svgOnly (st.noc.erase n) ++ svgOnly st.col ↔ _
    have hns : n ∈ svgOnly st.noc := mem_svgOnly.mpr ⟨hmem, hsvg⟩
    have hdisj : n ∉ svgOnly st.col := hfilesN.2.2 hns
    simp only [List.mem_append, mem_svgOnly]
    constructor
    · rintro (⟨h1, h2⟩ | ⟨h1, h2⟩)
      · rw [List.Nodup.mem_erase_iff hnoc] at h1
        exact ⟨Or.inl ⟨h1.2, h2⟩, h1.1⟩
      · refine ⟨Or.inr ⟨h1, h2⟩, ?_⟩
        intro hf
        subst hf
        exact hdisj (mem_svgOnly.mpr ⟨h1, h2⟩)
    · rintro ⟨h1 | h1, h2⟩
      · exact Or.inl ⟨(List.Nodup.mem_erase_iff hnoc).mpr ⟨h2, h1.1⟩, h1.2⟩
      · exact Or.inr h1
  · show f ∈ svgOnly st.noc ++ svgOnly (st.col.erase n) ↔ _
    have hns : n ∈ svgOnly st.col := mem_svgOnly.mpr ⟨hmem, hsvg⟩
    have hdisj : n ∉ svgOnly st.noc := fun hx => hfilesN.2.2 hx hns
    simp only [List.mem_append, mem_svgOnly]
    constructor
    · rintro (⟨h1, h2⟩ | ⟨h1, h2⟩)
      · refine ⟨Or.inl ⟨h1, h2⟩, ?_⟩
        intro hf
        subst hf
        exact hdisj (mem_svgOnly.mpr ⟨h1, h2⟩)
      · rw [List.Nodup.mem_erase_iff hcol] at h1
        exact ⟨Or.inr ⟨h1.2, h2⟩, h1.1⟩
    · rintro ⟨h1 | h1, h2⟩
      · exact Or.inl h1
      · exact Or.inr ⟨(List.Nodup.mem_erase_iff hcol).mpr ⟨h2, h1.1⟩, h1.2⟩

theorem mem_jsSet_iff {x e : IconInfo} : ∀ {m : List IconInfo},
    (keysOf m).Nodup →
    (x ∈ jsSet m e ↔ (x ∈ m ∧ ¬x.safeFileName = e.safeFileName) ∨ x = e) := by
  intro m
  induction m with
  | nil =>
    intro _
    simp [jsSet]
  | cons y ys ih =>
    intro hnd
    simp only [keysOf, List.map_cons, List.nodup_cons] at hnd
    by_cases hy : y.safeFileName = e.safeFileName
    · rw [jsSet, if_pos hy]
      constructor
      · intro hx
        rcases List.mem_cons.mp hx with h1 | h2
        · exact Or.inr h1
        · refine Or.inl ⟨List.mem_cons_of_mem _ h2, ?_⟩
          intro hk
          exact hnd.1 (by rw [hy, ← hk]; exact List.mem_map_of_mem _ h2)
      · rintro (⟨hm, hk⟩ | h1)
        · rcases List.mem_cons.mp hm with h2 | h3
          · exact absurd (by rw [h2]; exact hy) hk
          · exact List.mem_cons_of_mem _ h3
        · exact h1 ▸ List.mem_cons_self _ _
    · rw [jsSet, if_neg hy]
      constructor
      · intro hx
        rcases List.mem_cons.mp hx with h1 | h2
        · exact Or.inl ⟨h1 ▸ List.mem_cons_self _ _, by rw [h1]; exact hy⟩
        · rcases (ih hnd.2).mp h2 with ⟨h3, h4⟩ | h5
          · exact Or.inl ⟨List.mem_cons_of_mem _ h3, h4⟩
          · exact Or.inr h5
      · rintro (⟨hm, hk⟩ | h1)
        · rcases List.mem_cons.mp hm with h2 | h3
          · exact h2 ▸ List.mem_cons_self _ _
          · exact List.mem_cons_of_mem _ ((ih hnd.2).mpr (Or.inl ⟨h3, hk⟩))
        · exact List.mem_cons_of_mem _ ((ih hnd.2).mpr (Or.inr h1))

theorem mem_keysOf_jsDelete {m0 : List IconInfo} {s x : String}
    (hnd : (keysOf m0).Nodup) :
    x ∈ keysOf (jsDelete m0 s) ↔ ¬x = s ∧ x ∈ keysOf m0 := by
  rw [jsDelete_eq_filter hnd]
  unfold keysOf
  simp only [List.mem_map, List.mem_filter, Bool.not_eq_eq_eq_not, Bool.not_true,
    decide_eq_false_iff_not]
  constructor
  · rintro ⟨e, ⟨he, hk⟩, hex⟩
    exact ⟨by rw [← hex]; exact hk, e, he, hex⟩
  · rintro ⟨hxs, e, he, hex⟩
    exact ⟨e, ⟨he, by rw [hex]; exact hxs⟩, hex⟩

theorem incrementalBuild_add_one (pin : String → String) (st : SysState)
    (p : String) :
    incrementalBuild pin st [] [p] =
      { st with
          out := (addStep pin st (st.out, parseExistingIndex st.idx) p).1,
          idx := generateIndex
            (addStep pin st (st.out, parseExistingIndex st.idx) p).2 } := rfl

theorem addStep_pathOf (pin : String → String) (st1 : SysState) (ty : IconType)
    {n : String} (hn : n.data.all (fun c => !decide (c = '/')) = true)
    (hmem : n ∈ dirOf st1 ty) (acc : List String × List IconInfo) :
    addStep pin st1 acc (pathOf ty n) =
      ((if acc.1.contains (toSafeFileName pin n) then acc.1
        else acc.1 ++ [toSafeFileName pin n]), jsSet acc.2 (mkEntry pin n)) := by
  unfold addStep
  rw [pathType_pathOf ty hn, pathFile_pathOf ty hn]
  have hps : processSingleFile pin (dirOf st1 ty) n = some (mkEntry pin n) := by
    unfold processSingleFile
    rw [afterLastSlash_no_slash hn, mk_data n]
    show (if (dirOf st1 ty).contains n = true then
        some (⟨toComponentName pin n, toSafeFileName pin n⟩ : IconInfo)
      else none) = some (mkEntry pin n)
    rw [if_pos (contains_iff_mem.mpr hmem)]
    rfl
  rw [hps]
  rfl

theorem incrementalBuild_del_one (pin : String → String) (st : SysState)
    (p : String) :
    incrementalBuild pin st [p] [] =
      { st with
          out := (deleteStep pin (st.out, parseExistingIndex st.idx) p).1,
          idx := generateIndex
            (deleteStep pin (st.out, parseExistingIndex st.idx) p).2 } := rfl

theorem deleteStep_eq (pin : String → String)
    (acc : List String × List IconInfo) (p : String) :
    deleteStep pin acc p =
      if acc.1.contains (toSafeFileName pin ⟨afterLastSlash p.data⟩) then
        (acc.1.erase (toSafeFileName pin ⟨afterLastSlash p.data⟩),
          jsDelete acc.2 (toSafeFileName pin ⟨afterLastSlash p.data⟩))
      else acc := rfl

theorem applyOp_add_inv (pin : String → String) (st : SysState) (ty : IconType)
    (n : String) (hinv : sysInv pin st)
    (hop : wfOp pin st (.add ty n) = true) :
    sysInv pin (applyOp pin st (.add ty n)) ∧
    (applyOp pin st (.add ty n)).idx =
      fullBuildIndex pin (applyOp pin st (.add ty n)).noc
        (applyOp pin st (.add ty n)).col := by
  obtain ⟨hperm, hout, hnocN, hcolN, houtN⟩ := hinv
  have hop2 : (plainSvgName n &&
      decide ((allSafeNames pin (applyDirOp st (.add ty n))).Nodup) &&
      (allSafeNames pin (applyDirOp st (.add ty n))).all
        (fun s => !s.isEmpty)) = true := hop
  simp only [Bool.and_eq_true, decide_eq_true_eq] at hop2
  obtain ⟨⟨hplain, hnodup⟩, hall⟩ := hop2
  obtain ⟨hsvg, hslash⟩ := plainSvgName_parts hplain
  have hidx1 : (applyDirOp st (.add ty n)).idx = st.idx := applyDirOp_idx st _
  have hout1 : (applyDirOp st (.add ty n)).out = st.out := applyDirOp_out st _
  have hmemn : n ∈ dirOf (applyDirOp st (.add ty n)) ty := by
    rw [dirOf_add_self]
    exact mem_insertName.mpr (Or.inr rfl)
  have hred : applyOp pin st (.add ty n) =
      { applyDirOp st (.add ty n) with
          out := (if st.out.contains (toSafeFileName pin n) then st.out
            else st.out ++ [toSafeFileName pin n]),
          idx := generateIndex (jsSet (parseExistingIndex st.idx)
            (mkEntry pin n)) } := by
    show incrementalBuild pin (applyDirOp st (.add ty n)) [] [pathOf ty n] = _
    rw [incrementalBuild_add_one, hidx1, hout1,
      addStep_pathOf pin _ ty hslash hmemn]
  have hK : (keysOf (parseExistingIndex st.idx)).Nodup :=
    parseExistingIndex_keys_nodup st.idx
  have hwf0 : ∀ e ∈ parseExistingIndex st.idx, wfInfo e :=
    parseExistingIndex_wf st.idx
  have hnfiles1 : n ∈ svgOnly (applyDirOp st (.add ty n)).noc ++
      svgOnly (applyDirOp st (.add ty n)).col :=
    (mem_files_add hsvg).mpr (Or.inr rfl)
  have hasnN : ((svgOnly (applyDirOp st (.add ty n)).noc ++
      svgOnly (applyDirOp st (.add ty n)).col).map (toSafeFileName pin)).Nodup :=
    hnodup
  have hsmem : toSafeFileName pin n ∈
      allSafeNames pin (applyDirOp st (.add ty n)) :=
    List.mem_map_of_mem _ hnfiles1
  have hsne : ¬(toSafeFileName pin n).data = [] := by
    rw [List.all_eq_true] at hall
    have h2 := hall _ hsmem
    rw [Bool.not_eq_true'] at h2
    exact data_ne_nil_of_not_isEmpty h2
  have hinfo_wf : wfInfo (mkEntry pin n) := mkEntry_wf pin n hsne
  have hwfM : ∀ e ∈ jsSet (parseExistingIndex st.idx) (mkEntry pin n),
      wfInfo e := by
    intro e he
    rcases mem_jsSet he with h1 | h2
    · exact hwf0 e h1
    · exact h2 ▸ hinfo_wf
  have hMk : (keysOf (jsSet (parseExistingIndex st.idx)
      (mkEntry pin n))).Nodup := keysOf_jsSet_nodup _ hK
  have hMN : (jsSet (parseExistingIndex st.idx) (mkEntry pin n)).Nodup :=
    List.Nodup.of_map _ hMk
  have hfbe1K : (keysOf (fullBuildEntries pin (applyDirOp st (.add ty n)).noc
      (applyDirOp st (.add ty n)).col)).Nodup := by
    rw [keysOf_fullBuildEntries]
    exact hasnN
  have hfbe1N : (fullBuildEntries pin (applyDirOp st (.add ty n)).noc
      (applyDirOp st (.add ty n)).col).Nodup :=
    List.Nodup.of_map _ hfbe1K
  have hmemM : ∀ x, x ∈ jsSet (parseExistingIndex st.idx) (mkEntry pin n) ↔
      x ∈ fullBuildEntries pin (applyDirOp st (.add ty n)).noc
        (applyDirOp st (.add ty n)).col := by
    intro x
    rw [mem_jsSet_iff hK, fbe_eq_map, List.mem_map]
    constructor
    · rintro (⟨hm, hk⟩ | h1)
      · have hx : x ∈ fullBuildEntries pin st.noc st.col := hperm.mem_iff.mp hm
        rw [fbe_eq_map, List.mem_map] at hx
        obtain ⟨f, hf, hfx⟩ := hx
        exact ⟨f, (mem_files_add hsvg).mpr (Or.inl hf), hfx⟩
      · exact ⟨n, hnfiles1, h1.symm⟩
    · rintro ⟨f, hf, hfx⟩
      rcases (mem_files_add hsvg).mp hf with h1 | h1
      · have hxold : x ∈ parseExistingIndex st.idx := by
          apply hperm.mem_iff.mpr
          rw [fbe_eq_map, List.mem_map]
          exact ⟨f, h1, hfx⟩
        by_cases hks : x.safeFileName = (mkEntry pin n).safeFileName
        · have hf1 : f ∈ svgOnly (applyDirOp st (.add ty n)).noc ++
              svgOnly (applyDirOp st (.add ty n)).col :=
            (mem_files_add hsvg).mpr (Or.inl h1)
          have hkeq : toSafeFileName pin f = toSafeFileName pin n := by
            have h3 : (mkEntry pin f).safeFileName =
                (mkEntry pin n).safeFileName := by
              rw [hfx]
              exact hks
            exact h3
          have h4 : f = n := List.inj_on_of_nodup_map hasnN hf1 hnfiles1 hkeq
          subst h4
          exact Or.inr hfx.symm
        · exact Or.inl ⟨hxold, hks⟩
      · subst h1
        exact Or.inr hfx.symm
  have hMperm : List.Perm (jsSet (parseExistingIndex st.idx) (mkEntry pin n))
      (fullBuildEntries pin (applyDirOp st (.add ty n)).noc
        (applyDirOp st (.add ty n)).col) :=
    (List.perm_ext_iff_of_nodup hMN hfbe1N).mpr hmemM
  rw [hred]
  constructor
  · refine ⟨?_, ?_, ?_, ?_, ?_⟩
    · show List.Perm (parseExistingIndex (generateIndex
          (jsSet (parseExistingIndex st.idx) (mkEntry pin n))))
        (fullBuildEntries pin (applyDirOp st (.add ty n)).noc
          (applyDirOp st (.add ty n)).col)
      rw [parseExistingIndex_generateIndex _ hwfM hMk]
      exact (sortIcons_perm _).trans hMperm
    · show ∀ x, x ∈ (if st.out.contains (toSafeFileName pin n) then st.out
          else st.out ++ [toSafeFileName pin n]) ↔
        x ∈ keysOf (parseExistingIndex (generateIndex
          (jsSet (parseExistingIndex st.idx) (mkEntry pin n))))
      intro x
      rw [parseExistingIndex_generateIndex _ hwfM hMk]
      have hBB : x ∈ keysOf (sortIcons (jsSet (parseExistingIndex st.idx)
          (mkEntry pin n))) ↔
          x ∈ keysOf (jsSet (parseExistingIndex st.idx) (mkEntry pin n)) :=
        ((sortIcons_perm _).map (fun e => e.safeFileName)).mem_iff
      rw [keysOf_jsSet] at hBB
      refine Iff.trans ?_ hBB.symm
      by_cases hs : (mkEntry pin n).safeFileName ∈
          keysOf (parseExistingIndex st.idx)
      · rw [if_pos hs]
        have hcont : st.out.contains (toSafeFileName pin n) = true :=
          contains_iff_mem.mpr ((hout _).mpr hs)
        rw [if_pos hcont]
        exact hout x
      · rw [if_neg hs]
        have hcont : ¬st.out.contains (toSafeFileName pin n) = true := by
          intro hc
          exact hs ((hout _).mp (contains_iff_mem.mp hc))
        rw [if_neg hcont]
        simp only [List.mem_append, List.mem_singleton]
        constructor
        · rintro (h1 | h1)
          · exact Or.inl ((hout x).mp h1)
          · exact Or.inr h1
        · rintro (h1 | h1)
          · exact Or.inl ((hout x).mpr h1)
          · exact Or.inr h1
    · show (applyDirOp st (.add ty n)).noc.Nodup
      exact (applyDirOp_nodup hnocN hcolN _).1
    · show (applyDirOp st (.add ty n)).col.Nodup
      exact (applyDirOp_nodup hnocN hcolN _).2
    · show (if st.out.contains (toSafeFileName pin n) then st.out
          else st.out ++ [toSafeFileName pin n]).Nodup
      by_cases hcont : st.out.contains (toSafeFileName pin n) = true
      · rw [if_pos hcont]
        exact houtN
      · rw [if_neg hcont]
        refine List.Nodup.append houtN (List.nodup_singleton _) ?_
        intro a ha hb
        rw [List.mem_singleton] at hb
        subst hb
        exact hcont (contains_iff_mem.mpr ha)
  · show generateIndex (jsSet (parseExistingIndex st.idx) (mkEntry pin n)) =
      fullBuildIndex pin (applyDirOp st (.add ty n)).noc
        (applyDirOp st (.add ty n)).col
    exact generateIndex_congr hMperm hMk

theorem applyOp_del_inv (pin : String → String) (st : SysState) (ty : IconType)
    (n : String) (hinv : sysInv pin st)
    (hop : wfOp pin st (.del ty n) = true) :
    sysInv pin (applyOp pin st (.del ty n)) ∧
    (applyOp pin st (.del ty n)).idx =
      fullBuildIndex pin (applyOp pin st (.del ty n)).noc
        (applyOp pin st (.del ty n)).col := by
  obtain ⟨hperm, hout, hnocN, hcolN, houtN⟩ := hinv
  have hop2 : (plainSvgName n &&
      ((dirOf st ty).contains n ||
        (!st.noc.contains n && !st.col.contains n &&
          !(allSafeNames pin st).contains (toSafeFileName pin n)))) = true := hop
  simp only [Bool.and_eq_true, Bool.or_eq_true] at hop2
  obtain ⟨hplain, hcases⟩ := hop2
  obtain ⟨hsvg, hslash⟩ := plainSvgName_parts hplain
  have hidx1 : (applyDirOp st (.del ty n)).idx = st.idx := applyDirOp_idx st _
  have hout1 : (applyDirOp st (.del ty n)).out = st.out := applyDirOp_out st _
  have hK : (keysOf (parseExistingIndex st.idx)).Nodup :=
    parseExistingIndex_keys_nodup st.idx
  have hwf0 : ∀ e ∈ parseExistingIndex st.idx, wfInfo e :=
    parseExistingIndex_wf st.idx
  have hkey : toSafeFileName pin (⟨afterLastSlash (pathOf ty n).data⟩ : String) =
      toSafeFileName pin n := by
    rw [afterLastSlash_pathOf ty hslash, mk_data]
  have hkp : List.Perm (keysOf (parseExistingIndex st.idx))
      ((svgOnly st.noc ++ svgOnly st.col).map (toSafeFileName pin)) := by
    rw [← keysOf_fullBuildEntries pin st.noc st.col]
    exact hperm.map _
  rcases hcases with hA | hB
  · have hnA : n ∈ dirOf st ty := contains_iff_mem.mp hA
    have hnfiles : n ∈ svgOnly st.noc ++ svgOnly st.col := by
      cases ty
      · exact List.mem_append.mpr (Or.inl (mem_svgOnly.mpr ⟨hnA, hsvg⟩))
      · exact List.mem_append.mpr (Or.inr (mem_svgOnly.mpr ⟨hnA, hsvg⟩))
    have hsmem0 : toSafeFileName pin n ∈ keysOf (parseExistingIndex st.idx) :=
      hkp.mem_iff.mpr (List.mem_map_of_mem _ hnfiles)
    have hsout : toSafeFileName pin n ∈ st.out := (hout _).mpr hsmem0
    have hcont : st.out.contains (toSafeFileName pin n) = true :=
      contains_iff_mem.mpr hsout
    have hred : applyOp pin st (.del ty n) =
        { applyDirOp st (.del ty n) with
            out := st.out.erase (toSafeFileName pin n),
            idx := generateIndex (jsDelete (parseExistingIndex st.idx)
              (toSafeFileName pin n)) } := by
      show incrementalBuild pin (applyDirOp st (.del ty n)) [pathOf ty n] [] = _
      rw [incrementalBuild_del_one, hidx1, hout1, deleteStep_eq, hkey,
        if_pos hcont]
    have hasnN : ((svgOnly st.noc ++ svgOnly st.col).map
        (toSafeFileName pin)).Nodup := hkp.nodup_iff.mp hK
    have hfilesN : (svgOnly st.noc ++ svgOnly st.col).Nodup :=
      List.Nodup.of_map _ hasnN
    have hwfM : ∀ e ∈ jsDelete (parseExistingIndex st.idx)
        (toSafeFileName pin n), wfInfo e :=
      fun e he => hwf0 e ((jsDelete_sublist _ _).subset he)
    have hMk : (keysOf (jsDelete (parseExistingIndex st.idx)
        (toSafeFileName pin n))).Nodup := keysOf_jsDelete_nodup _ hK
    have hMN : (jsDelete (parseExistingIndex st.idx)
        (toSafeFileName pin n)).Nodup := List.Nodup.of_map _ hMk
    have hfilessub : (svgOnly (applyDirOp st (.del ty n)).noc ++
        svgOnly (applyDirOp st (.del ty n)).col).Sublist
        (svgOnly st.noc ++ svgOnly st.col) := by
      cases ty
      · exact List.Sublist.append ((List.erase_sublist n st.noc).filter _)
          (List.Sublist.refl _)
      · exact List.Sublist.append (List.Sublist.refl _)
          ((List.erase_sublist n st.col).filter _)
    have hfbe1K : (keysOf (fullBuildEntries pin (applyDirOp st (.del ty n)).noc
        (applyDirOp st (.del ty n)).col)).Nodup := by
      rw [keysOf_fullBuildEntries]
      exact List.Nodup.sublist (hfilessub.map _) hasnN
    have hfbe1N : (fullBuildEntries pin (applyDirOp st (.del ty n)).noc
        (applyDirOp st (.del ty n)).col).Nodup := List.Nodup.of_map _ hfbe1K
    have hmemM : ∀ x, x ∈ jsDelete (parseExistingIndex st.idx)
        (toSafeFileName pin n) ↔
        x ∈ fullBuildEntries pin (applyDirOp st (.del ty n)).noc
          (applyDirOp st (.del ty n)).col := by
      intro x
      rw [jsDelete_eq_filter hK, List.mem_filter, fbe_eq_map, List.mem_map]
      constructor
      · rintro ⟨hm, hk⟩
        simp only [Bool.not_eq_true', decide_eq_false_iff_not] at hk
        have hx : x ∈ fullBuildEntries pin st.noc st.col := hperm.mem_iff.mp hm
        rw [fbe_eq_map, List.mem_map] at hx
        obtain ⟨f, hf, hfx⟩ := hx
        refine ⟨f, ?_, hfx⟩
        apply (mem_files_del hnocN hcolN hfilesN hsvg hnA).mpr
        refine ⟨hf, ?_⟩
        intro hfn
        subst hfn
        apply hk
        rw [← hfx]
        rfl
      · rintro ⟨f, hf, hfx⟩
        have hfd := (mem_files_del hnocN hcolN hfilesN hsvg hnA).mp hf
        refine ⟨?_, ?_⟩
        · apply hperm.mem_iff.mpr
          rw [fbe_eq_map, List.mem_map]
          exact ⟨f, hfd.1, hfx⟩
        · simp only [Bool.not_eq_true', decide_eq_false_iff_not]
          intro hks
          have hkeq : toSafeFileName pin f = toSafeFileName pin n := by
            rw [← hfx] at hks
            exact hks
          exact hfd.2 (List.inj_on_of_nodup_map hasnN hfd.1 hnfiles hkeq)
    have hMperm : List.Perm (jsDelete (parseExistingIndex st.idx)
        (toSafeFileName pin n))
        (fullBuildEntries pin (applyDirOp st (.del ty n)).noc
          (applyDirOp st (.del ty n)).col) :=
      (List.perm_ext_iff_of_nodup hMN hfbe1N).mpr hmemM
    rw [hred]
    constructor
    · refine ⟨?_, ?_, ?_, ?_, ?_⟩
      · show List.Perm (parseExistingIndex (generateIndex
            (jsDelete (parseExistingIndex st.idx) (toSafeFileName pin n))))
          (fullBuildEntries pin (applyDirOp st (.del ty n)).noc
            (applyDirOp st (.del ty n)).col)
        rw [parseExistingIndex_generateIndex _ hwfM hMk]
        exact (sortIcons_perm _).trans hMperm
      · show ∀ x, x ∈ st.out.erase (toSafeFileName pin n) ↔
          x ∈ keysOf (parseExistingIndex (generateIndex
            (jsDelete (parseExistingIndex st.idx) (toSafeFileName pin n))))
        intro x
        rw [parseExistingIndex_generateIndex _ hwfM hMk]
        have hBB : x ∈ keysOf (sortIcons (jsDelete (parseExistingIndex st.idx)
            (toSafeFileName pin n))) ↔
            x ∈ keysOf (jsDelete (parseExistingIndex st.idx)
              (toSafeFileName pin n)) :=
          ((sortIcons_perm _).map (fun e => e.safeFileName)).mem_iff
        rw [mem_keysOf_jsDelete hK] at hBB
        refine Iff.trans ?_ hBB.symm
        rw [List.Nodup.mem_erase_iff houtN]
        exact ⟨fun h => ⟨h.1, (hout x).mp h.2⟩,
          fun h => ⟨h.1, (hout x).mpr h.2⟩⟩
      · show (applyDirOp st (.del ty n)).noc.Nodup
        exact (applyDirOp_nodup hnocN hcolN _).1
      · show (applyDirOp st (.del ty n)).col.Nodup
        exact (applyDirOp_nodup hnocN hcolN _).2
      · show (st.out.erase (toSafeFileName pin n)).Nodup
        exact List.Nodup.erase _ houtN
    · show generateIndex (jsDelete (parseExistingIndex st.idx)
          (toSafeFileName pin n)) =
        fullBuildIndex pin (applyDirOp st (.del ty n)).noc
          (applyDirOp st (.del ty n)).col
      exact generateIndex_congr hMperm hMk
  · simp only [Bool.and_eq_true, Bool.not_eq_true'] at hB
    obtain ⟨⟨hn1, hn2⟩, hns⟩ := hB
    have hnm1 : n ∉ st.noc := fun h =>
      Bool.false_ne_true (hn1.symm.trans (contains_iff_mem.mpr h))
    have hnm2 : n ∉ st.col := fun h =>
      Bool.false_ne_true (hn2.symm.trans (contains_iff_mem.mpr h))
    have hsnm : toSafeFileName pin n ∉ allSafeNames pin st := fun h =>
      Bool.false_ne_true (hns.symm.trans (contains_iff_mem.mpr h))
    have hst1 : applyDirOp st (.del ty n) = st := by
      cases ty
      · show { st with noc := st.noc.erase n } = st
        rw [List.erase_of_not_mem hnm1]
      · show { st with col := st.col.erase n } = st
        rw [List.erase_of_not_mem hnm2]
    have hsK : toSafeFileName pin n ∉ keysOf (parseExistingIndex st.idx) :=
      fun h => hsnm (hkp.mem_iff.mp h)
    have hcont : ¬st.out.contains (toSafeFileName pin n) = true := fun hc =>
      hsK ((hout _).mp (contains_iff_mem.mp hc))
    have hred : applyOp pin st (.del ty n) =
        { applyDirOp st (.del ty n) with
            out := st.out,
            idx := generateIndex (parseExistingIndex st.idx) } := by
      show incrementalBuild pin (applyDirOp st (.del ty n)) [pathOf ty n] [] = _
      rw [incrementalBuild_del_one, hidx1, hout1, deleteStep_eq, hkey,
        if_neg hcont]
    rw [hred, hst1]
    constructor
    · refine ⟨?_, ?_, hnocN, hcolN, houtN⟩
      · show List.Perm (parseExistingIndex (generateIndex
            (parseExistingIndex st.idx)))
          (fullBuildEntries pin st.noc st.col)
        rw [parseExistingIndex_generateIndex _ hwf0 hK]
        exact (sortIcons_perm _).trans hperm
      · show ∀ x, x ∈ st.out ↔ x ∈ keysOf (parseExistingIndex
          (generateIndex (parseExistingIndex st.idx)))
        intro x
        rw [parseExistingIndex_generateIndex _ hwf0 hK]
        have hBB : x ∈ keysOf (sortIcons (parseExistingIndex st.idx)) ↔
            x ∈ keysOf (parseExistingIndex st.idx) :=
          ((sortIcons_perm _).map (fun e => e.safeFileName)).mem_iff
        exact (hout x).trans hBB.symm
    · show generateIndex (parseExistingIndex st.idx) =
        fullBuildIndex pin st.noc st.col
      exact generateIndex_congr hperm hK

theorem applyOp_inv (pin : String → String) (st : SysState) (op : FileOp)
    (hinv : sysInv pin st) (hop : wfOp pin st op = true) :
    sysInv pin (applyOp pin st op) ∧
    (applyOp pin st op).idx =
      fullBuildIndex pin (applyOp pin st op).noc (applyOp pin st op).col := by
  cases op with
  | add ty n => exact applyOp_add_inv pin st ty n hinv hop
  | del ty n => exact applyOp_del_inv pin st ty n hinv hop

theorem runOps_inv (pin : String → String) : ∀ (ops : List FileOp)
    (st : SysState), sysInv pin st → wfRun pin st ops = true →
    sysInv pin (runOps pin st ops) ∧
    (¬ops = [] → (runOps pin st ops).idx =
      fullBuildIndex pin (runOps pin st ops).noc (runOps pin st ops).col) := by
  intro ops
  induction ops with
  | nil =>
    intro st hinv _
    exact ⟨hinv, fun h => absurd rfl h⟩
  | cons op ops2 ih =>
    intro st hinv hwf
    have hwf2 : (wfOp pin st op && wfRun pin (applyOp pin st op) ops2) = true :=
      hwf
    rw [Bool.and_eq_true] at hwf2
    have hstep := applyOp_inv pin st op hinv hwf2.1
    have hrest := ih (applyOp pin st op) hstep.1 hwf2.2
    refine ⟨hrest.1, ?_⟩
    intro _
    show (runOps pin (applyOp pin st op) ops2).idx = _
    by_cases h2 : ops2 = []
    · subst h2
      exact hstep.2
    · exact hrest.2 h2

/-! ### Claim theorems -/


/-- C9 (amended): with identifier-shaped names and pairwise-distinct
safeFileNames, parsing the generated index recovers exactly the set of
entries that were written; the zero-icon placeholder parses to the empty
set.  The distinctness hypothesis is forced: with two entries sharing a
safeFileName the Map keyed on it keeps only the last (see the
counterexample). -/
theorem c9_parse_roundtrip (icons : List IconInfo)
    (hwf : ∀ e ∈ icons, wfInfo e) (hnd : (keysOf icons).Nodup) :
    (parseExistingIndex (generateIndex icons)).toFinset = icons.toFinset ∧
    parseExistingIndex (generateIndex []) = [] := by
  constructor
  · rw [parseExistingIndex_generateIndex icons hwf hnd]
    exact List.toFinset_eq_of_perm _ _ (sortIcons_perm icons)
  · show buildMap (scanEx emptyIndexL) = []
    rw [scanEx_empty_index]
    rfl

/-- C9 (counterexample): two written entries share the safeFileName `a`;
the parse keyed on safeFileName keeps only the last, so the first written
pair is not recovered — the claim fails without a distinctness
hypothesis. -/
theorem c9_counterexample :
    ((⟨"QxIconA", "a"⟩ : IconInfo) ∈
      [(⟨"QxIconA", "a"⟩ : IconInfo), ⟨"QxIconB", "a"⟩]) ∧
    (⟨"QxIconA", "a"⟩ : IconInfo) ∉
      parseExistingIndex (generateIndex
        [(⟨"QxIconA", "a"⟩ : IconInfo), ⟨"QxIconB", "a"⟩]) := by
  constructor
  · decide
  · decide

theorem c9_witness :
    (parseExistingIndex (generateIndex
        [(⟨"QxIconArrowLeft", "arrow-left"⟩ : IconInfo)])).toFinset =
      [(⟨"QxIconArrowLeft", "arrow-left"⟩ : IconInfo)].toFinset ∧
    parseExistingIndex (generateIndex []) = [] :=
  c9_parse_roundtrip [(⟨"QxIconArrowLeft", "arrow-left"⟩ : IconInfo)]
    (by decide) (by decide)

/-- C6: the rewritten index contains exactly one export line per entry of
the final manifest list, in an order sorted by safeFileName, between the
fixed header and a trailing newline; the empty manifest produces the
zero-icon placeholder, which is a module with no parseable export lines
(and no error path exists — `generateIndex` is total). -/
theorem c6_index_sorted_lines (icons : List IconInfo) :
    (icons ≠ [] → ∃ L, List.Perm L icons ∧
      (L.map (fun e => e.safeFileName)).Sorted strLe ∧
      generateIndex icons =
        ⟨indexHeaderL ++ joinNL (L.map exportLineL) ++ ['\n']⟩) ∧
    generateIndex [] = ⟨emptyIndexL⟩ ∧
    parseExistingIndex ⟨emptyIndexL⟩ = [] := by
  refine ⟨?_, rfl, ?_⟩
  · intro hne
    refine ⟨sortIcons icons, sortIcons_perm icons, ?_, ?_⟩
    · have hs := sortIcons_sorted icons
      unfold List.Sorted at hs ⊢
      rw [List.pairwise_map]
      exact hs
    · unfold generateIndex generateIndexL
      rw [if_neg (by simpa using hne)]
  · show buildMap (scanEx emptyIndexL) = []
    rw [scanEx_empty_index]
    rfl

theorem c6_witness :
    ∃ L, List.Perm L [(⟨"QxIconB", "b"⟩ : IconInfo), ⟨"QxIconA", "a"⟩] ∧
      (L.map (fun e => e.safeFileName)).Sorted strLe ∧
      generateIndex [(⟨"QxIconB", "b"⟩ : IconInfo), ⟨"QxIconA", "a"⟩] =
        ⟨indexHeaderL ++ joinNL (L.map exportLineL) ++ ['\n']⟩ :=
  (c6_index_sorted_lines [(⟨"QxIconB", "b"⟩ : IconInfo), ⟨"QxIconA", "a"⟩]).1
    (by decide)

/-- C10: `sanitizeFileName` is idempotent — applying it to its own output
returns that output unchanged, which the pipeline relies on when
`toComponentName` and `toTagName` re-sanitize an already-sanitized name.
The hypothesis records the property of the external pinyin transliteration
(identity on strings of safe characters) that the source depends on. -/
theorem c10_sanitizeFileName_idempotent (pin : String → String)
    (hpin : ∀ t : String, t.data.all isKebabChar = true → pin t = t)
    (s : String) :
    sanitizeFileName pin (sanitizeFileName pin s) = sanitizeFileName pin s :=
  sanitizeFileName_idem_helper pin hpin s

theorem c10_witness :
    sanitizeFileName id (sanitizeFileName id "Arrow Left 01") =
      sanitizeFileName id "Arrow Left 01" :=
  c10_sanitizeFileName_idempotent id (fun _ _ => rfl) "Arrow Left 01"

/-- C3 (amended): the derived safeBaseName is always all-lowercase over
`[a-z0-9-]`, and — whenever it is non-empty — matches the kebab pattern
(first and last character alphanumeric, no doubled hyphen); `toPascalCase`
of it contains no hyphen and equals the direct split-capitalize-join of
its hyphen-separated segments.  The unconditional non-emptiness of the
original claim is dropped: it fails, see the counterexample. -/
theorem c3_sanitization_invariants (pin : String → String)
    (hpin : ∀ t : String, t.data.all isKebabChar = true → pin t = t)
    (s : String) :
    (toSafeFileName pin s).data.all isKebabChar = true ∧
    (toSafeFileName pin s ≠ "" → kebabShapeB (toSafeFileName pin s).data = true) ∧
    hyphenFreeB (toPascalCase pin (toSafeFileName pin s)).data = true ∧
    toPascalCase pin (toSafeFileName pin s) = pascalOfSafe (toSafeFileName pin s) := by
  refine ⟨sanitizeList_all_kebab _, ?_, pascalBody_hyphenFree _, ?_⟩
  · intro hne
    refine sanitizeList_shape _ (fun h0 => hne ?_)
    show String.mk (sanitizeList _) = ""
    rw [h0]
  · exact toPascalCase_of_sanitized pin hpin _

/-- C3 (counterexample): the filename `"--.svg"` sanitizes to the empty
string, which is neither non-empty nor a match of the kebab pattern —
the unconditional part of the claim is false. -/
theorem c3_counterexample :
    toSafeFileName id "--.svg" = "" ∧
    kebabShapeB (toSafeFileName id "--.svg").data = false := by
  exact ⟨rfl, rfl⟩

theorem c3_witness :
    (toSafeFileName id "arrow-left.svg").data.all isKebabChar = true ∧
    (toSafeFileName id "arrow-left.svg" ≠ "" →
      kebabShapeB (toSafeFileName id "arrow-left.svg").data = true) ∧
    hyphenFreeB (toPascalCase id (toSafeFileName id "arrow-left.svg")).data = true ∧
    toPascalCase id (toSafeFileName id "arrow-left.svg") =
      pascalOfSafe (toSafeFileName id "arrow-left.svg") :=
  c3_sanitization_invariants id (fun _ _ => rfl) "arrow-left.svg"

/-- C2 (code bug): a filename whose sanitization collapses to the empty
string is not rejected anywhere — `processSingleFile` succeeds and
returns a manifest entry with componentName `"QxIcon"` and empty
safeFileName, the component file it writes is literally named `".ts"`,
and the derived tag is `"qx-icon-"`; no naming error exists in the
pipeline, contradicting the spec's NamingError requirement. -/
theorem c2_empty_name_no_error :
    processSingleFile id ["--.svg"] "--.svg" =
      some { componentName := "QxIcon", safeFileName := "" } ∧
    outputFileName { componentName := "QxIcon", safeFileName := "" } = ".ts" ∧
    toTagName id "--.svg" = "qx-icon-" := by
  refine ⟨?_, rfl, rfl⟩
  rfl

/-- C5 (amended): for ColorPreserving icons the post-optimization step is
the global width/height-attribute regex removal applied to the whole
optimized markup — all elements, not only the root — and for Colorable
icons no such removal happens. -/
theorem c5_strip_is_global (opt : String → String) (raw : String) :
    processSvg opt IconType.colors raw = stripWHs (cleanSvg (opt raw)) ∧
    processSvg opt IconType.nocolors raw = cleanSvg (opt raw) :=
  ⟨rfl, rfl⟩

/-- C5 (counterexample): the claim promises width/height attributes of
non-root elements are left unchanged, but the global replacement also
strips them from the `rect` element. -/
theorem c5_counterexample :
    processSvg id IconType.colors
        "<svg width=\x228\x22 height=\x228\x22><rect width=\x224\x22 height=\x224\x22/></svg>" =
      "<svg><rect/></svg>" ∧
    "<svg><rect/></svg>" ≠
      "<svg><rect width=\x224\x22 height=\x224\x22/></svg>" := by
  exact ⟨rfl, by decide⟩

/-- C7 (amended): dimensions are computed from the raw markup independently
of the optimizer (hence before optimization); the viewBox pattern wins and
contributes its third and fourth captured fields; otherwise the width= and
height= quoted-numeric substring matches are used when both exist — these
are substring matches, which also fire inside longer attribute names such
as `stroke-width` (the correction to the claim) — and otherwise the result
is `null`. -/
theorem c7_dimension_extraction (raw : String) :
    (∀ opt opt2 : String → String, ∀ ty ty2 : IconType,
      (transformFile opt ty raw).2 = (transformFile opt2 ty2 raw).2) ∧
    (∀ g1 g2 g3 g4, findViewBox raw.data = some (g1, g2, g3, g4) →
      getSvgDimensions raw = some ⟨jsParseFloat g3, jsParseFloat g4⟩) ∧
    (findViewBox raw.data = none → ∀ w h,
      findAttr "width".data raw.data = some w →
      findAttr "height".data raw.data = some h →
      getSvgDimensions raw = some ⟨jsParseFloat w, jsParseFloat h⟩) ∧
    (findViewBox raw.data = none →
      (findAttr "width".data raw.data = none ∨
        findAttr "height".data raw.data = none) →
      getSvgDimensions raw = none) := by
  refine ⟨fun _ _ _ _ => rfl, ?_, ?_, ?_⟩
  · intro g1 g2 g3 g4 h
    unfold getSvgDimensions
    rw [h]
  · intro h0 w h hw hh
    unfold getSvgDimensions
    rw [h0, hw, hh]
  · intro h0 hwh
    unfold getSvgDimensions
    rw [h0]
    rcases hwh with h1 | h1
    · rw [h1]
    · rw [h1]
      cases hw : findAttr "width".data raw.data <;> rfl

/-- C7 (counterexample): a markup with no viewBox and no width attribute —
only `stroke-width="2"` and `height="5"` — yields dimensions 2 by 5,
where the claim (explicit width and height attributes both present,
otherwise null) demands null. -/
theorem c7_counterexample :
    getSvgDimensions "<svg stroke-width=\x222\x22 height=\x225\x22></svg>" =
      some { width := some 2, height := some 5 } := by
  decide

theorem c7_witness :
    getSvgDimensions "<svg viewBox=\x220 0 24 32\x22></svg>" =
      some { width := jsParseFloat "24".data, height := jsParseFloat "32".data } ∧
    jsParseFloat "24".data = some 24 ∧ jsParseFloat "32".data = some 32 :=
  ⟨(c7_dimension_extraction "<svg viewBox=\x220 0 24 32\x22></svg>").2.1
      "0".data "0".data "24".data "32".data rfl,
    by decide, by decide⟩

/-- C8: the Duplicate Guard reports exactly the set of raw `.svg`
filenames present in both directories and exits non-zero exactly when
that set is non-empty; comparison is on raw filenames (no sanitization is
involved anywhere in the script). -/
theorem c8_duplicate_guard (noc col : List String) :
    (checkDuplicates noc col).1.toFinset =
      (noc.filter (fun f => f.endsWith ".svg")).toFinset ∩
        (col.filter (fun f => f.endsWith ".svg")).toFinset ∧
    ((checkDuplicates noc col).2 = 0 ↔ (checkDuplicates noc col).1 = []) := by
  constructor
  · ext x
    rw [List.mem_toFinset, Finset.mem_inter, List.mem_toFinset, List.mem_toFinset]
    show x ∈ (col.filter (fun f => f.endsWith ".svg")).filter
        (fun f => (noc.filter (fun g => g.endsWith ".svg")).contains f) ↔ _
    rw [List.mem_filter]
    constructor
    · rintro ⟨h1, h2⟩
      exact ⟨List.elem_iff.mp h2, h1⟩
    · rintro ⟨h1, h2⟩
      exact ⟨h2, List.elem_iff.mpr h1⟩
  · show (if ((col.filter (fun f => f.endsWith ".svg")).filter
        (fun f => (noc.filter (fun g => g.endsWith ".svg")).contains f)).length > 0
        then 1 else 0) = 0 ↔
      (col.filter (fun f => f.endsWith ".svg")).filter
        (fun f => (noc.filter (fun g => g.endsWith ".svg")).contains f) = []
    cases hc : (col.filter (fun f => f.endsWith ".svg")).filter
        (fun f => (noc.filter (fun g => g.endsWith ".svg")).contains f) with
    | nil => simp
    | cons a t => simp

/-- C4 (amended): one incremental delete of path `p` removes the manifest
entry keyed by the derived safeBaseName exactly when the generated
component file is currently present — the file is then erased from the
output set and the entry disappears from the rewritten index; when the
file is absent only a warning is printed and the manifest, stale entry
included, is regenerated unchanged.  In both cases every recovered entry
with a different safeBaseName survives into the rewritten index. -/
theorem c4_delete_semantics (pin : String → String) (st : SysState) (p : String) :
    (st.out.contains (toSafeFileName pin ⟨afterLastSlash p.data⟩) = true →
      (incrementalBuild pin st [p] []).out =
        st.out.erase (toSafeFileName pin ⟨afterLastSlash p.data⟩) ∧
      ∀ e, e ∈ parseExistingIndex (incrementalBuild pin st [p] []).idx ↔
        (e ∈ parseExistingIndex st.idx ∧
          ¬e.safeFileName = toSafeFileName pin ⟨afterLastSlash p.data⟩)) ∧
    (st.out.contains (toSafeFileName pin ⟨afterLastSlash p.data⟩) = false →
      (incrementalBuild pin st [p] []).out = st.out ∧
      ∀ e, e ∈ parseExistingIndex (incrementalBuild pin st [p] []).idx ↔
        e ∈ parseExistingIndex st.idx) := by
  have hwf0 := parseExistingIndex_wf st.idx
  have hnd0 := parseExistingIndex_keys_nodup st.idx
  constructor
  · intro hc
    have hd : deleteStep pin (st.out, parseExistingIndex st.idx) p =
        (st.out.erase (toSafeFileName pin ⟨afterLastSlash p.data⟩),
          jsDelete (parseExistingIndex st.idx)
            (toSafeFileName pin ⟨afterLastSlash p.data⟩)) := by
      rw [deleteStep_eq]
      exact if_pos hc
    constructor
    · rw [incrementalBuild_del_one, hd]
    · intro e
      have hidx : (incrementalBuild pin st [p] []).idx =
          generateIndex (jsDelete (parseExistingIndex st.idx)
            (toSafeFileName pin ⟨afterLastSlash p.data⟩)) := by
        rw [incrementalBuild_del_one, hd]
      rw [hidx, parseExistingIndex_generateIndex _
          (fun x hx => hwf0 x ((jsDelete_sublist _ _).subset hx))
          (keysOf_jsDelete_nodup _ hnd0),
        (sortIcons_perm _).mem_iff, jsDelete_eq_filter hnd0, List.mem_filter]
      simp
  · intro hc
    have hd : deleteStep pin (st.out, parseExistingIndex st.idx) p =
        (st.out, parseExistingIndex st.idx) := by
      rw [deleteStep_eq]
      exact if_neg (fun h => by rw [hc] at h; exact Bool.false_ne_true h)
    constructor
    · rw [incrementalBuild_del_one, hd]
    · intro e
      have hidx : (incrementalBuild pin st [p] []).idx =
          generateIndex (parseExistingIndex st.idx) := by
        rw [incrementalBuild_del_one, hd]
      rw [hidx, parseExistingIndex_generateIndex _ hwf0 hnd0,
        (sortIcons_perm _).mem_iff]

/-- C4 (counterexample): the manifest names `ghost` but its generated file
is absent (fresh checkout with a stale index) — the incremental delete of
`nocolors/ghost.svg` leaves the stale manifest entry in place, where the
claim demands its removal. -/
theorem c4_counterexample :
    (incrementalBuild id ⟨[], [], [], generateIndex [⟨"QxIconGhost", "ghost"⟩]⟩
        ["nocolors/ghost.svg"] []).out = [] ∧
    (⟨"QxIconGhost", "ghost"⟩ : IconInfo) ∈
      parseExistingIndex (incrementalBuild id
        ⟨[], [], [], generateIndex [⟨"QxIconGhost", "ghost"⟩]⟩
        ["nocolors/ghost.svg"] []).idx := by
  constructor
  · decide
  · decide

theorem c4_witness :
    (incrementalBuild id
        ⟨[], [], ["arrow"], generateIndex
          [⟨"QxIconArrow", "arrow"⟩, ⟨"QxIconBee", "bee"⟩]⟩
        ["nocolors/arrow.svg"] []).out = [] ∧
    ((⟨"QxIconBee", "bee"⟩ : IconInfo) ∈
      parseExistingIndex (incrementalBuild id
        ⟨[], [], ["arrow"], generateIndex
          [⟨"QxIconArrow", "arrow"⟩, ⟨"QxIconBee", "bee"⟩]⟩
        ["nocolors/arrow.svg"] []).idx) ∧
    ((⟨"QxIconArrow", "arrow"⟩ : IconInfo) ∉
      parseExistingIndex (incrementalBuild id
        ⟨[], [], ["arrow"], generateIndex
          [⟨"QxIconArrow", "arrow"⟩, ⟨"QxIconBee", "bee"⟩]⟩
        ["nocolors/arrow.svg"] []).idx) := by
  have h := (c4_delete_semantics id
      ⟨[], [], ["arrow"], generateIndex
        [⟨"QxIconArrow", "arrow"⟩, ⟨"QxIconBee", "bee"⟩]⟩
      "nocolors/arrow.svg").1 (by decide)
  refine ⟨?_, ?_, ?_⟩
  · rw [h.1]
    decide
  · exact (h.2 _).mpr ⟨by decide, by decide⟩
  · intro hc
    exact ((h.2 _).mp hc).2 (by decide)

/-- C1 (amended): convergence of incremental and full builds holds for
every well-formed run from a fresh checkout — each tracked event carries a
plain `.svg` filename, deletions target a listed file (or one whose safe
name is entirely unclaimed), and after each event no two listed files share
a derived safeBaseName and none sanitizes to the empty string.  Under
these conditions the index written by the last incremental invocation
equals the index a full build would produce from the final directory
listings.  The well-formedness is needed: safe-name collisions break the
claim (see the counterexample). -/
theorem c1_convergence (pin : String → String) (ops : List FileOp)
    (hwf : wfRun pin initState ops = true) (hne : ¬ops = []) :
    (runOps pin initState ops).idx =
      fullBuildIndex pin (runOps pin initState ops).noc
        (runOps pin initState ops).col := by
  have hinv0 : sysInv pin initState :=
    ⟨List.Perm.nil, fun x => Iff.rfl, List.nodup_nil, List.nodup_nil,
      List.nodup_nil⟩
  exact (runOps_inv pin ops initState hinv0 hwf).2 hne

/-- C1 (counterexample): adding `a b.svg` and then `a-b.svg` — two names
with the same sanitized base `a-b` — leaves the incremental index with one
export line where the full build of the same final directory state writes
two, so the unconditional convergence of the claim fails. -/
theorem c1_counterexample :
    ¬(runOps id initState
        [FileOp.add IconType.nocolors "a b.svg",
         FileOp.add IconType.nocolors "a-b.svg"]).idx =
      fullBuildIndex id
        (runOps id initState
          [FileOp.add IconType.nocolors "a b.svg",
           FileOp.add IconType.nocolors "a-b.svg"]).noc
        (runOps id initState
          [FileOp.add IconType.nocolors "a b.svg",
           FileOp.add IconType.nocolors "a-b.svg"]).col := by
  decide

theorem c1_witness :
    (runOps id initState [FileOp.add IconType.nocolors "arrow.svg"]).idx =
      fullBuildIndex id
        (runOps id initState [FileOp.add IconType.nocolors "arrow.svg"]).noc
        (runOps id initState [FileOp.add IconType.nocolors "arrow.svg"]).col :=
  c1_convergence id [FileOp.add IconType.nocolors "arrow.svg"] (by decide)
    (by decide)

end WebIcon
